import Mathlib

/-!
Verification of the CSV → pivot → normalize → window/label → split pipeline
of this repository.  The repository contains two parallel implementations:

* variant A: `data-loader.js` (class `DataLoader`) together with `gru.js`
  (`GRUModel.accuracyByStock`) and its app file (`renderTimelines`);
* variant B: the `StockDataLoader` class together with
  `GRUStockPredictor.calculateStockAccuracies`.

JavaScript numbers are embedded as exact rationals extended with the special
values NaN, Infinity and -Infinity, so that the NaN-propagation behaviour of
`Math.min`/`Math.max`, arithmetic and comparisons is modelled faithfully.
-/

namespace Pipeline

/-! Rational arithmetic helpers.  They are extensionally equal to `Sub.sub`,
`Mul.mul`, `Div.div` and `Int.toNat ∘ Int.floor` (bridge lemmas below), but
are written through `Rat.divInt` so that every concrete pipeline run reduces
inside the kernel. -/

/-- Exact rational subtraction. -/
def qsub (a b : ℚ) : ℚ := Rat.divInt (a.num * b.den - b.num * a.den) (a.den * b.den)

/-- Exact rational multiplication. -/
def qmul (a b : ℚ) : ℚ := Rat.divInt (a.num * b.num) (a.den * b.den)

/-- Exact rational division (callers guard the zero denominator). -/
def qdiv (a b : ℚ) : ℚ := Rat.divInt (a.num * b.den) (a.den * b.num)

/-- `Math.floor` of a non-negative rational, as a natural number. -/
def qfloorNat (q : ℚ) : ℕ := (q.num.fdiv q.den).toNat

/-- A JavaScript number: a finite value (modelled exactly as a rational),
NaN, Infinity or -Infinity. -/
inductive JSVal where
  | num (q : ℚ)
  | nan
  | inf
  | ninf
deriving DecidableEq, Repr

namespace JSVal

/-- JS strict comparison `a < b` (false whenever an operand is NaN). -/
def jsLt : JSVal → JSVal → Bool
  | nan, _ => false
  | _, nan => false
  | num a, num b => a < b
  | num _, inf => true
  | num _, ninf => false
  | inf, _ => false
  | ninf, ninf => false
  | ninf, _ => true

/-- JS comparison `a > b`. -/
def jsGt (a b : JSVal) : Bool := jsLt b a

/-- JS comparison `a >= b` (false whenever an operand is NaN). -/
def jsGe : JSVal → JSVal → Bool
  | nan, _ => false
  | _, nan => false
  | num a, num b => b ≤ a
  | num _, inf => false
  | num _, ninf => true
  | inf, _ => true
  | ninf, ninf => true
  | ninf, _ => false

/-- JS strict equality `a === b` on numbers (NaN is not equal to itself). -/
def jsEqq : JSVal → JSVal → Bool
  | num a, num b => a = b
  | inf, inf => true
  | ninf, ninf => true
  | _, _ => false

/-- JS subtraction `a - b`. -/
def jsSub : JSVal → JSVal → JSVal
  | nan, _ => nan
  | _, nan => nan
  | num a, num b => num (qsub a b)
  | num _, inf => ninf
  | num _, ninf => inf
  | inf, inf => nan
  | inf, _ => inf
  | ninf, ninf => nan
  | ninf, _ => ninf

/-- JS division `a / b` (division by zero yields NaN or a signed infinity). -/
def jsDiv : JSVal → JSVal → JSVal
  | nan, _ => nan
  | _, nan => nan
  | num a, num b =>
      if b = 0 then (if a = 0 then nan else if 0 < a then inf else ninf)
      else num (qdiv a b)
  | num _, inf => num 0
  | num _, ninf => num 0
  | inf, num b => if 0 ≤ b then inf else ninf
  | inf, _ => nan
  | ninf, num b => if 0 ≤ b then ninf else inf
  | ninf, _ => nan

/-- `Math.min` of two values: NaN-propagating minimum. -/
def jsMin2 : JSVal → JSVal → JSVal
  | nan, _ => nan
  | _, nan => nan
  | num a, num b => num (min a b)
  | num a, inf => num a
  | num _, ninf => ninf
  | inf, b => b
  | ninf, _ => ninf

/-- `Math.max` of two values: NaN-propagating maximum. -/
def jsMax2 : JSVal → JSVal → JSVal
  | nan, _ => nan
  | _, nan => nan
  | num a, num b => num (max a b)
  | num a, ninf => num a
  | num _, inf => inf
  | ninf, b => b
  | inf, _ => inf

/-- `Math.min(...list)`: the spread call starts from `Math.min() = Infinity`
and folds the arguments left to right. -/
def jsMinList (l : List JSVal) : JSVal := l.foldl jsMin2 inf

/-- `Math.max(...list)`: starts from `Math.max() = -Infinity`. -/
def jsMaxList (l : List JSVal) : JSVal := l.foldl jsMax2 ninf

/-- JS truthiness of a number: `0` and `NaN` are falsy. -/
def truthy : JSVal → Bool
  | num q => q ≠ 0
  | nan => false
  | _ => true

/-- The neutral fallback value 0.5 used by the normalizer. -/
def half : JSVal := num (Rat.divInt 1 2)

end JSVal

/-! List utilities mirroring the JavaScript idioms used by the source:
`Array.from(new Set(xs)).sort()`, `Array.prototype.indexOf`, and indexed
assignment into a nested array.  Date and symbol identifiers are modelled
as natural numbers; the source sorts them as strings, and the numeric sort
here is order-isomorphic to the lexicographic sort of the source. -/

/-- Insert a value into a sorted duplicate-free list, keeping it sorted and
duplicate-free. -/
def insertUniq (x : ℕ) : List ℕ → List ℕ
  | [] => [x]
  | y :: ys =>
      if x = y then y :: ys
      else if x < y then x :: y :: ys
      else y :: insertUniq x ys

/-- `Array.from(new Set(l)).sort()`: the sorted list of distinct elements. -/
def sortedDedup (l : List ℕ) : List ℕ := l.foldl (fun acc x => insertUniq x acc) []

/-- `l.indexOf x` for an element known to occur in `l` (returns `l.length`
when absent; the source never looks up an absent key). -/
def idxOf {α : Type} [DecidableEq α] (x : α) : List α → ℕ
  | [] => 0
  | y :: ys => if y = x then 0 else idxOf x ys + 1

/-- Indexed assignment `l[i] = a` (no-op when out of range; the source only
assigns in range). -/
def updAt {α : Type} : List α → ℕ → α → List α
  | [], _, _ => []
  | _ :: t, 0, a => a :: t
  | h :: t, n + 1, a => h :: updAt t n a

namespace DataLoader

/-! Shallow embedding of `data-loader.js` (variant A). -/

/-- One data row of the CSV after field extraction: date and symbol
identifiers plus the `Number(...)`-parsed open and close values (a
non-numeric field parses to NaN). -/
structure Row where
  date : ℕ
  symbol : ℕ
  openV : JSVal
  closeV : JSVal
deriving DecidableEq, Repr

/-- A matrix cell `{open, close}`. -/
abbrev Cell := JSVal × JSVal

/-- The pivoted `[date][symbol]` matrix. -/
abbrev Mat := List (List Cell)

/-- The missing-cell sentinel `{open: NaN, close: NaN}`. -/
def nanCell : Cell := (JSVal.nan, JSVal.nan)

/-- Sorted deduplicated symbol axis of a row list. -/
def symbolsOf (rows : List Row) : List ℕ := sortedDedup (rows.map (·.symbol))

/-- Sorted deduplicated date axis of a row list. -/
def datesOf (rows : List Row) : List ℕ := sortedDedup (rows.map (·.date))

/-- The initial matrix, every cell filled with the NaN sentinel. -/
def emptyMatrix (dN sN : ℕ) : Mat := List.replicate dN (List.replicate sN nanCell)

/-- Write one record into the matrix at `(dates.indexOf date,
symbolIndex[symbol])`. -/
def applyRow (dates symbols : List ℕ) (m : Mat) (r : Row) : Mat :=
  updAt m (idxOf r.date dates)
    (updAt (m.getD (idxOf r.date dates) []) (idxOf r.symbol symbols) (r.openV, r.closeV))

/-- The pivot loop of `loadCSV`: fold all records into the NaN-filled
matrix. -/
def rawMatrix (rows : List Row) : Mat :=
  rows.foldl (applyRow (datesOf rows) (symbolsOf rows))
    (emptyMatrix (datesOf rows).length (symbolsOf rows).length)

/-- Read a matrix cell. -/
def cellAt (m : Mat) (d s : ℕ) : Cell := (m.getD d []).getD s nanCell

/-- The open values of one symbol column (one entry per date, NaN for
missing cells), as collected by `_normalize`. -/
def colOpens (m : Mat) (s : ℕ) : List JSVal := m.map (fun day => (day.getD s nanCell).1)

/-- The close values of one symbol column. -/
def colCloses (m : Mat) (s : ℕ) : List JSVal := m.map (fun day => (day.getD s nanCell).2)

/-- `_scale(val, min, max)`: 0.5 for NaN input, 0.5 for a degenerate range,
otherwise the linear rescale `(val - min) / (max - min)`. -/
def scale (v mn mx : JSVal) : JSVal :=
  if v = JSVal.nan then JSVal.half
  else if JSVal.jsEqq mx mn then JSVal.half
  else JSVal.jsDiv (JSVal.jsSub v mn) (JSVal.jsSub mx mn)

/-- `_normalize`: compute `Math.min`/`Math.max` of every symbol column
(over all cells, as the source does) and rescale every cell in place. -/
def normalizeMatrix (sN : ℕ) (m : Mat) : Mat :=
  m.map (fun day =>
    (List.range sN).map (fun s =>
      (scale (day.getD s nanCell).1 (JSVal.jsMinList (colOpens m s)) (JSVal.jsMaxList (colOpens m s)),
       scale (day.getD s nanCell).2 (JSVal.jsMinList (colCloses m s)) (JSVal.jsMaxList (colCloses m s)))))

/-- Loader state after `loadCSV`: the axes and the normalized matrix. -/
structure Loader where
  symbols : List ℕ
  dates : List ℕ
  matrix : Mat
deriving DecidableEq, Repr

/-- The whole of `loadCSV` after field extraction: build the axes, pivot,
normalize. -/
def loadRows (rows : List Row) : Loader :=
  { symbols := symbolsOf rows
    dates := datesOf rows
    matrix := normalizeMatrix (symbolsOf rows).length (rawMatrix rows) }

/-- CSV column names: the four required ones and opaque extras. -/
inductive Header where
  | date
  | symbol
  | openH
  | closeH
  | other (n : ℕ)
deriving DecidableEq, Repr

/-- The required columns `[Date, Symbol, Open, Close]`. -/
def requiredCols : List Header := [Header.date, Header.symbol, Header.openH, Header.closeH]

/-- The fixed error message thrown by `loadCSV` on a failed header check. -/
def schemaErrMsg : String := "CSV columns missing. Required: Date,Symbol,Open,Close"

/-- `loadCSV` with the header validation: the required-columns check runs
before any record is parsed or pivoted. -/
def loadCSV (headers : List Header) (rows : List Row) : Except String Loader :=
  if requiredCols.all (fun c => headers.contains c) then Except.ok (loadRows rows)
  else Except.error schemaErrMsg

/-- Interleave `[open, close]` pairs, as the inner `dayVec` push loop does. -/
def pairJoin : List Cell → List JSVal
  | [] => []
  | (a, b) :: t => a :: b :: pairJoin t

/-- One per-date feature vector `[open_1, close_1, ..., open_N, close_N]`. -/
def dayVec (L : Loader) (w : ℕ) : List JSVal :=
  pairJoin ((List.range L.symbols.length).map (fun s => cellAt L.matrix w s))

/-- The feature sequence of the sample anchored at `d`: the `wLen` day
vectors for dates `d - wLen, ..., d - 1`. -/
def xSeq (L : Loader) (wLen d : ℕ) : List (List JSVal) :=
  (List.range wLen).map (fun j => dayVec L (d - wLen + j))

/-- The (normalized) close value at `(date, symbol)`. -/
def closeAt (L : Loader) (d s : ℕ) : JSVal := (cellAt L.matrix d s).2

/-- One binary label: 1 iff the close at `d - 1 + t` is strictly greater
than the close at `d - 1` (JS `>`, hence false when an operand is NaN). -/
def upLabel (L : Loader) (d s t : ℕ) : ℕ :=
  if JSVal.jsGt (closeAt L (d - 1 + t) s) (closeAt L (d - 1) s) then 1 else 0

/-- The label vector of the sample anchored at `d`: symbols in the outer
loop, offsets `t = 1..ahead` in the inner loop. -/
def labelVec (L : Loader) (ahead d : ℕ) : List ℕ :=
  ((List.range L.symbols.length).map (fun s =>
    (List.range ahead).map (fun t => upLabel L d s (t + 1)))).flatten

/-- The anchor positions of `buildDataset`: the loop
`for (d = windowLen; d < datesLen - ahead; d++)`. -/
def anchors (L : Loader) (wLen ahead : ℕ) : List ℕ :=
  List.range' wLen (L.dates.length - ahead - wLen)

/-- All feature sequences, in anchor order. -/
def buildX (L : Loader) (wLen ahead : ℕ) : List (List (List JSVal)) :=
  (anchors L wLen ahead).map (xSeq L wLen)

/-- All label vectors, in anchor order. -/
def buildY (L : Loader) (wLen ahead : ℕ) : List (List ℕ) :=
  (anchors L wLen ahead).map (labelVec L ahead)

/-- `Math.floor(total * (1 - testSplit))`. -/
def splitIndex (total : ℕ) (testSplit : ℚ) : ℕ :=
  qfloorNat (qmul (total : ℚ) (qsub 1 testSplit))

/-- The four split pieces returned by `buildDataset`. -/
structure Dataset where
  xtrain : List (List (List JSVal))
  ytrain : List (List ℕ)
  xtest : List (List (List JSVal))
  ytest : List (List ℕ)
deriving DecidableEq, Repr

/-- `buildDataset(windowLen, ahead, testSplit)` on a loaded `Loader`:
build the samples and split them chronologically at `splitIndex`. -/
def buildDataset (L : Loader) (wLen ahead : ℕ) (testSplit : ℚ) : Dataset :=
  { xtrain := (buildX L wLen ahead).take (splitIndex (buildX L wLen ahead).length testSplit)
    ytrain := (buildY L wLen ahead).take (splitIndex (buildX L wLen ahead).length testSplit)
    xtest := (buildX L wLen ahead).drop (splitIndex (buildX L wLen ahead).length testSplit)
    ytest := (buildY L wLen ahead).drop (splitIndex (buildX L wLen ahead).length testSplit) }

/-- The error message of `buildDataset` when the loader is not ready. -/
def notLoadedMsg : String := "Data not loaded"

/-- `buildDataset` including its only `throw` site: the `ready` guard.
No other exception exists in the builder or the splitter. -/
def buildDatasetE (ready : Bool) (L : Loader) (wLen ahead : ℕ) (testSplit : ℚ) :
    Except String Dataset :=
  if ready then Except.ok (buildDataset L wLen ahead testSplit)
  else Except.error notLoadedMsg

/-- The flat label index used by the variant-A consumers
(`accuracyByStock` in `gru.js` uses `idx = s * nSteps + t` and
`renderTimelines` uses `idxFlat = stockId * nSteps + t`, with
`nSteps = 3`). -/
def gruPredIdx (s t : ℕ) : ℕ := s * 3 + t

/-- The ground-truth value the variant-A consumers read for
(sample `i`, stock `s`, step `t`): `y_true[i][s * 3 + t]`. -/
def gruTrueAt (yTrue : List (List ℕ)) (i s t : ℕ) : ℕ :=
  (yTrue.getD i []).getD (gruPredIdx s t) 0

end DataLoader

namespace StockLoader

/-! Shallow embedding of the `StockDataLoader` class (variant B) and of the
`GRUStockPredictor.calculateStockAccuracies` consumer. -/

/-- One parsed CSV line of `parseCSV`: the object `entry` restricted to the
four fields the rest of the pipeline reads.  A field is `none` when its
column is absent from the header row or the line is short (JS
`undefined`).  Cell contents are opaque tokens. -/
structure Entry where
  dateF : Option ℕ
  symbolF : Option ℕ
  openF : Option ℕ
  closeF : Option ℕ
deriving DecidableEq, Repr

/-- `entry[h] = values[headers.indexOf(h)]`, `undefined` when `h` is not a
header or the line is short. -/
def lookupCol (headers : List DataLoader.Header) (values : List ℕ) (h : DataLoader.Header) :
    Option ℕ :=
  if headers.contains h then values[idxOf h headers]? else none

/-- `parseCSV`: build one entry per data line.  There is no header
validation; this function never fails. -/
def parseCSV (headers : List DataLoader.Header) (rows : List (List ℕ)) : List Entry :=
  rows.map (fun v =>
    { dateF := lookupCol headers v DataLoader.Header.date
      symbolF := lookupCol headers v DataLoader.Header.symbol
      openF := lookupCol headers v DataLoader.Header.openH
      closeF := lookupCol headers v DataLoader.Header.closeH })

/-- One record as consumed by `prepareData`: date and symbol identifiers
plus the `parseFloat`-parsed open and close values. -/
structure SRec where
  date : ℕ
  symbol : ℕ
  openV : JSVal
  closeV : JSVal
deriving DecidableEq, Repr

/-- The sorted deduplicated symbol axis. -/
def sSymbols (recs : List SRec) : List ℕ := sortedDedup (recs.map (·.symbol))

/-- The sorted deduplicated date axis. -/
def sDates (recs : List SRec) : List ℕ := sortedDedup (recs.map (·.date))

/-- The pivoted cell for `(date, symbol)`:
`rawData.find(d => d.Date === date && d.Symbol === symbol)` keeps the FIRST
matching record; absent when no record matches. -/
def pivotCell (recs : List SRec) (dt sy : ℕ) : Option DataLoader.Cell :=
  (recs.find? (fun r => r.date == dt && r.symbol == sy)).map (fun r => (r.openV, r.closeV))

/-- `.filter(Boolean)` over a column that may hold `undefined` (absent
cells): keeps only truthy numbers, so it also drops `NaN` and the value
`0`. -/
def filterBool (l : List (Option JSVal)) : List JSVal :=
  l.filterMap (fun o =>
    match o with
    | some v => if JSVal.truthy v then some v else none
    | none => none)

/-- Per-symbol normalization statistics. -/
structure SStats where
  openMin : JSVal
  openMax : JSVal
  closeMin : JSVal
  closeMax : JSVal
deriving DecidableEq, Repr

/-- The open column of a symbol over the date axis (`undefined` for absent
cells). -/
def colOpen (recs : List SRec) (sy : ℕ) : List (Option JSVal) :=
  (sDates recs).map (fun dt => (pivotCell recs dt sy).map Prod.fst)

/-- The close column of a symbol over the date axis. -/
def colClose (recs : List SRec) (sy : ℕ) : List (Option JSVal) :=
  (sDates recs).map (fun dt => (pivotCell recs dt sy).map Prod.snd)

/-- `stockStats[symbol]` in `normalizeData`: min/max over the
`filter(Boolean)`-filtered columns, present only when both filtered
columns are non-empty. -/
def stockStats (recs : List SRec) (sy : ℕ) : Option SStats :=
  if 0 < (filterBool (colOpen recs sy)).length ∧ 0 < (filterBool (colClose recs sy)).length then
    some { openMin := JSVal.jsMinList (filterBool (colOpen recs sy))
           openMax := JSVal.jsMaxList (filterBool (colOpen recs sy))
           closeMin := JSVal.jsMinList (filterBool (colClose recs sy))
           closeMax := JSVal.jsMaxList (filterBool (colClose recs sy))
           : SStats }
  else none

/-- `normalizedData[date][symbol]`: the plain rescale
`(value - min) / (max - min)` with NO degenerate-range guard; absent when
the pivot cell or the stats are absent. -/
def normalizedCell (recs : List SRec) (dt sy : ℕ) : Option DataLoader.Cell :=
  match pivotCell recs dt sy, stockStats recs sy with
  | some (o, c), some st =>
      some (JSVal.jsDiv (JSVal.jsSub o st.openMin) (JSVal.jsSub st.openMax st.openMin),
            JSVal.jsDiv (JSVal.jsSub c st.closeMin) (JSVal.jsSub st.closeMax st.closeMin))
  | _, _ => none

/-- The date identifier at a position of the date axis. -/
def dateAt (recs : List SRec) (i : ℕ) : ℕ := (sDates recs).getD i 0

/-- One per-date feature vector of `createSequences`: `[Open, Close]` per
symbol, with `[0, 0]` padding for a missing cell. -/
def featureVec (recs : List SRec) (dt : ℕ) : List JSVal :=
  ((sSymbols recs).map (fun sy =>
    match normalizedCell recs dt sy with
    | some (o, c) => [o, c]
    | none => [JSVal.num 0, JSVal.num 0])).flatten

/-- The 12-day feature sequence of sample `i` (dates `i, ..., i + 11`). -/
def sequenceAt (recs : List SRec) (i : ℕ) : List (List JSVal) :=
  (List.range 12).map (fun j => featureVec recs (dateAt recs (i + j)))

/-- `currentClosePrices[symbol] = normalizedData[currentDate]?.[symbol]?.Close || 0`
for sample `i` (current date is position `i + 11`). -/
def currentClose (recs : List SRec) (i : ℕ) (sy : ℕ) : JSVal :=
  match (normalizedCell recs (dateAt recs (i + 11)) sy).map Prod.snd with
  | some c => if JSVal.truthy c then c else JSVal.num 0
  | none => JSVal.num 0

/-- One target entry of sample `i` for offset `off` (1-based) and a symbol:
`futureClose > currentClose ? 1 : 0` when the future close is defined
(the current close is never `undefined` thanks to `|| 0`), else 0. -/
def targetEntry (recs : List SRec) (i off sy : ℕ) : ℕ :=
  match (normalizedCell recs (dateAt recs (i + 11 + off)) sy).map Prod.snd with
  | some f => if JSVal.jsGt f (currentClose recs i sy) then 1 else 0
  | none => 0

/-- The target vector of sample `i`: offsets `1..3` in the OUTER loop and
symbols in the inner loop (day-major layout). -/
def targetVec (recs : List SRec) (i : ℕ) : List ℕ :=
  ((List.range 3).map (fun o =>
    (sSymbols recs).map (fun sy => targetEntry recs i (o + 1) sy))).flatten

/-- The sample count: the loop
`for (i = 0; i < dates.length - sequenceLength - predictionHorizon; i++)`
with the hardcoded `sequenceLength = 12`, `predictionHorizon = 3`. -/
def seqCount (recs : List SRec) : ℕ := (sDates recs).length - 12 - 3

/-- All feature sequences. -/
def sequences (recs : List SRec) : List (List (List JSVal)) :=
  (List.range (seqCount recs)).map (sequenceAt recs)

/-- All target vectors. -/
def targets (recs : List SRec) : List (List ℕ) :=
  (List.range (seqCount recs)).map (targetVec recs)

/-- `splitData`: `Math.floor(sampleCount * 0.8)`. -/
def sSplitIndex (recs : List SRec) : ℕ :=
  qfloorNat (qmul ((sequences recs).length : ℚ) (Rat.divInt 4 5))

/-- The four split pieces of `splitData`; the slicing raises no error. -/
def splitData (recs : List SRec) : DataLoader.Dataset :=
  { xtrain := (sequences recs).take (sSplitIndex recs)
    ytrain := (targets recs).take (sSplitIndex recs)
    xtest := (sequences recs).drop (sSplitIndex recs)
    ytest := (targets recs).drop (sSplitIndex recs) }

/-- The flat label index used by `calculateStockAccuracies`:
`predIdx = stockIdx + (day * stocksCount)`. -/
def p3PredIdx (stocksCount s day : ℕ) : ℕ := s + day * stocksCount

/-- The ground-truth value `calculateStockAccuracies` reads for
(sample `i`, stock `s`, day `day`): `trueArray[i][predIdx]`. -/
def p3TrueAt (yTrue : List (List ℕ)) (stocksCount i s day : ℕ) : ℕ :=
  (yTrue.getD i []).getD (p3PredIdx stocksCount s day) 0

end StockLoader

namespace DataLoader

/-- The last record for a given (date, symbol) pair, in input order (the
record whose values a last-write-wins pivot keeps). -/
def lastMatch (dt sy : ℕ) : List Row → Option Row
  | [] => none
  | r :: rest =>
      match lastMatch dt sy rest with
      | some x => some x
      | none => if r.date = dt ∧ r.symbol = sy then some r else none

end DataLoader

namespace SpecSide

/-! Definitions that follow the WORDS of the specification (not the code),
used only to compare the code's behaviour against the spec in refinement
claims. -/

/-- The non-missing observations of a variant-A column: the cells holding a
finite number (missing cells hold the NaN sentinel). -/
def observedVals (col : List JSVal) : List ℚ :=
  col.filterMap (fun v =>
    match v with
    | JSVal.num q => some q
    | _ => none)

/-- Spec §4.3: the minimum over exactly the non-missing observations. -/
def specMin (col : List JSVal) : Option ℚ := (observedVals col).min?

/-- Spec §4.3: the maximum over exactly the non-missing observations. -/
def specMax (col : List JSVal) : Option ℚ := (observedVals col).max?

/-- The non-missing observations of a variant-B column (absent cells are
`none`; a present non-numeric cell holds NaN). -/
def observedValsOpt (col : List (Option JSVal)) : List ℚ :=
  col.filterMap (fun o =>
    match o with
    | some (JSVal.num q) => some q
    | _ => none)

/-- The minimum over the non-missing observations of a variant-B column. -/
def specMinOpt (col : List (Option JSVal)) : Option ℚ := (observedValsOpt col).min?

/-- Claim C2's label-entry definition for a variant-B sample: 1 iff the
close at the anchor plus `t` is strictly greater than the close at the
anchor, else 0, with 0 as default when either value is missing. -/
def claimEntryB (recs : List StockLoader.SRec) (i t sy : ℕ) : ℕ :=
  match (StockLoader.normalizedCell recs (StockLoader.dateAt recs (i + 11 + t)) sy).map Prod.snd,
        (StockLoader.normalizedCell recs (StockLoader.dateAt recs (i + 11)) sy).map Prod.snd with
  | some f, some c => if JSVal.jsGt f c then 1 else 0
  | _, _ => 0

/-- Claim C2's asserted layout for a variant-B sample: symbols in the OUTER
loop, offsets `t = 1..3` in the inner loop (symbol-major). -/
def claimTargetVecB (recs : List StockLoader.SRec) (i : ℕ) : List ℕ :=
  ((StockLoader.sSymbols recs).map (fun sy =>
    (List.range 3).map (fun t => claimEntryB recs i (t + 1) sy))).flatten

end SpecSide

namespace TestData

/-! Concrete datasets used by the closed theorems.  Symbols are `0` (called
A below) and `1` (called B); dates are `0, 1, 2, ...` consecutive trading
days. -/

/-- Variant A: 2 symbols × 20 consecutive days; A's prices rise `1..20`,
B's prices fall `100..81`. -/
def rowsA20 : List DataLoader.Row :=
  ((List.range 20).map (fun d =>
    [ { date := d, symbol := 0, openV := JSVal.num ((d + 1 : ℕ) : ℚ),
        closeV := JSVal.num ((d + 1 : ℕ) : ℚ) },
      { date := d, symbol := 1, openV := JSVal.num ((100 - d : ℕ) : ℚ),
        closeV := JSVal.num ((100 - d : ℕ) : ℚ) } ])).flatten

/-- Variant A: 1 symbol × 5 days (fewer than windowLen + horizon = 15). -/
def rows5 : List DataLoader.Row :=
  (List.range 5).map (fun d =>
    { date := d, symbol := 0, openV := JSVal.num ((d + 1 : ℕ) : ℚ),
      closeV := JSVal.num ((d + 1 : ℕ) : ℚ) })

/-- Variant A: 2 symbols × 2 days, with symbol B missing on date 1. -/
def rowsAm : List DataLoader.Row :=
  [ { date := 0, symbol := 0, openV := JSVal.num 1, closeV := JSVal.num 1 },
    { date := 1, symbol := 0, openV := JSVal.num 2, closeV := JSVal.num 2 },
    { date := 0, symbol := 1, openV := JSVal.num 2, closeV := JSVal.num 3 } ]

/-- Variant A: two records for the same (date 0, symbol 0) pair. -/
def rowsAdup : List DataLoader.Row :=
  [ { date := 0, symbol := 0, openV := JSVal.num 1, closeV := JSVal.num 2 },
    { date := 0, symbol := 0, openV := JSVal.num 3, closeV := JSVal.num 4 } ]

/-- Variant A: 2 symbols × 16 days; symbol B's close is the constant 5
(degenerate range), A's prices rise. -/
def rowsA16c : List DataLoader.Row :=
  ((List.range 16).map (fun d =>
    [ { date := d, symbol := 0, openV := JSVal.num ((d + 1 : ℕ) : ℚ),
        closeV := JSVal.num ((d + 1 : ℕ) : ℚ) },
      { date := d, symbol := 1, openV := JSVal.num ((d + 2 : ℕ) : ℚ),
        closeV := JSVal.num 5 } ])).flatten

/-- Variant B: 2 symbols × 16 consecutive days; A's prices rise `1..16`,
B's prices fall `100..85`. -/
def srecs16 : List StockLoader.SRec :=
  ((List.range 16).map (fun d =>
    [ { date := d, symbol := 0, openV := JSVal.num ((d + 1 : ℕ) : ℚ),
        closeV := JSVal.num ((d + 1 : ℕ) : ℚ) },
      { date := d, symbol := 1, openV := JSVal.num ((100 - d : ℕ) : ℚ),
        closeV := JSVal.num ((100 - d : ℕ) : ℚ) } ])).flatten

/-- Variant B: `srecs16` with symbol B's record on date 11 (the current
date of sample 0) removed. -/
def srecs16m : List StockLoader.SRec :=
  srecs16.filter (fun r => !(r.date == 11 && r.symbol == 1))

/-- Variant B: one symbol with the constant price 5 on two days. -/
def srecsConst : List StockLoader.SRec :=
  [ { date := 0, symbol := 0, openV := JSVal.num 5, closeV := JSVal.num 5 },
    { date := 1, symbol := 0, openV := JSVal.num 5, closeV := JSVal.num 5 } ]

/-- Variant B: two records for the same (date 0, symbol 0) pair. -/
def srecsDup : List StockLoader.SRec :=
  [ { date := 0, symbol := 0, openV := JSVal.num 1, closeV := JSVal.num 2 },
    { date := 0, symbol := 0, openV := JSVal.num 3, closeV := JSVal.num 4 } ]

/-- Variant B: one symbol observed on two days with closes 0 and 5 (the
value 0 is a legitimate observation but is falsy in JS). -/
def srecsZero : List StockLoader.SRec :=
  [ { date := 0, symbol := 0, openV := JSVal.num 5, closeV := JSVal.num 0 },
    { date := 1, symbol := 0, openV := JSVal.num 5, closeV := JSVal.num 5 } ]

/-- A header row lacking the required `Close` column. -/
def hdrsNoClose : List DataLoader.Header :=
  [DataLoader.Header.date, DataLoader.Header.symbol, DataLoader.Header.openH]

/-- One data line (opaque cell tokens) for the schema-validation claim. -/
def lineNoClose : List (List ℕ) := [[0, 7, 100]]

end TestData

/-! From here on: lemmas and theorems. -/

set_option maxRecDepth 1000000

/-- `qsub` agrees with rational subtraction. -/
theorem qsub_eq (a b : ℚ) : qsub a b = a - b := by
  have ha : (a.den : ℚ) ≠ 0 := by exact_mod_cast a.den_nz
  have hb : (b.den : ℚ) ≠ 0 := by exact_mod_cast b.den_nz
  rw [qsub, Rat.divInt_eq_div]
  push_cast
  conv_rhs => rw [← Rat.num_div_den a, ← Rat.num_div_den b, div_sub_div _ _ ha hb]
  ring_nf

/-- `qmul` agrees with rational multiplication. -/
theorem qmul_eq (a b : ℚ) : qmul a b = a * b := by
  have ha : (a.den : ℚ) ≠ 0 := by exact_mod_cast a.den_nz
  have hb : (b.den : ℚ) ≠ 0 := by exact_mod_cast b.den_nz
  rw [qmul, Rat.divInt_eq_div]
  push_cast
  conv_rhs => rw [← Rat.num_div_den a, ← Rat.num_div_den b, div_mul_div_comm]

/-- `qdiv` agrees with rational division on a nonzero denominator. -/
theorem qdiv_eq (a b : ℚ) (hb : b ≠ 0) : qdiv a b = a / b := by
  have ha : (a.den : ℚ) ≠ 0 := by exact_mod_cast a.den_nz
  have hbn : (b.num : ℚ) ≠ 0 := by exact_mod_cast Rat.num_ne_zero.mpr hb
  rw [qdiv, Rat.divInt_eq_div]
  push_cast
  rw [div_eq_div_iff (mul_ne_zero ha hbn) hb]
  rw [mul_assoc, Rat.den_mul_eq_num, ← mul_assoc, Rat.mul_den_eq_num]

/-- `qfloorNat` agrees with `Math.floor` (truncated to ℕ). -/
theorem qfloorNat_eq (q : ℚ) : qfloorNat q = (⌊q⌋).toNat := by
  unfold qfloorNat
  congr 1
  rw [Int.fdiv_eq_ediv _ (by positivity)]
  rw [Rat.floor_def]

/-- `updAt` preserves the length. -/
theorem updAt_length {α : Type} (l : List α) (i : ℕ) (a : α) :
    (updAt l i a).length = l.length := by
  induction l generalizing i with
  | nil => rfl
  | cons x t ih =>
      cases i with
      | zero => rfl
      | succ n => simp [updAt, ih]

/-- Reading the assigned index back. -/
theorem getD_updAt_eq {α : Type} (l : List α) (i : ℕ) (a d : α) (h : i < l.length) :
    (updAt l i a).getD i d = a := by
  induction l generalizing i with
  | nil => simp at h
  | cons x t ih =>
      cases i with
      | zero => rfl
      | succ n =>
          simp only [updAt, List.getD_cons_succ]
          exact ih n (Nat.lt_of_succ_lt_succ h)

/-- Reading any other index is unchanged. -/
theorem getD_updAt_ne {α : Type} (l : List α) (i j : ℕ) (a d : α) (h : i ≠ j) :
    (updAt l i a).getD j d = l.getD j d := by
  induction l generalizing i j with
  | nil => cases i <;> rfl
  | cons x t ih =>
      cases i with
      | zero =>
          cases j with
          | zero => exact absurd rfl h
          | succ m => rfl
      | succ n =>
          cases j with
          | zero => rfl
          | succ m =>
              simp only [updAt, List.getD_cons_succ]
              exact ih n m (fun hnm => h (by omega))

/-- Out-of-range assignment is a no-op. -/
theorem updAt_oob {α : Type} (l : List α) (i : ℕ) (a : α) (h : l.length ≤ i) :
    updAt l i a = l := by
  induction l generalizing i with
  | nil => rfl
  | cons x t ih =>
      cases i with
      | zero => simp at h
      | succ n =>
          simp only [updAt, List.cons.injEq, true_and]
          exact ih n (Nat.le_of_succ_le_succ h)

/-- Writing the value already present is a no-op. -/
theorem updAt_getD_self {α : Type} (l : List α) (i : ℕ) (d : α) (h : i < l.length) :
    updAt l i (l.getD i d) = l := by
  induction l generalizing i with
  | nil => simp at h
  | cons x t ih =>
      cases i with
      | zero => rfl
      | succ n =>
          simp only [List.getD_cons_succ, updAt, List.cons.injEq, true_and]
          exact ih n (Nat.lt_of_succ_lt_succ h)

/-- `idxOf` of a member is in range. -/
theorem idxOf_lt_length {α : Type} [DecidableEq α] {x : α} {l : List α} (h : x ∈ l) :
    idxOf x l < l.length := by
  induction l with
  | nil => simp at h
  | cons y t ih =>
      by_cases hyx : y = x
      · simp [idxOf, hyx]
      · have hx : x ∈ t := by
          rcases List.mem_cons.mp h with h1 | h1
          · exact absurd h1.symm hyx
          · exact h1
        simp only [idxOf, if_neg hyx, List.length_cons]
        exact Nat.succ_lt_succ (ih hx)

/-- `idxOf` of a non-member is the length. -/
theorem idxOf_eq_length {α : Type} [DecidableEq α] {x : α} {l : List α} (h : x ∉ l) :
    idxOf x l = l.length := by
  induction l with
  | nil => rfl
  | cons y t ih =>
      have hyx : y ≠ x := fun he => h (he ▸ List.mem_cons_self y t)
      have hx : x ∉ t := fun hm => h (List.mem_cons_of_mem y hm)
      simp [idxOf, hyx, ih hx]

/-- `idxOf` is injective on members. -/
theorem idxOf_inj {α : Type} [DecidableEq α] {x y : α} {l : List α} (hx : x ∈ l) (hy : y ∈ l)
    (h : idxOf x l = idxOf y l) : x = y := by
  induction l with
  | nil => simp at hx
  | cons z t ih =>
      by_cases hzx : z = x
      · by_cases hzy : z = y
        · exact hzx ▸ hzy
        · exfalso
          simp only [idxOf, if_pos hzx, if_neg hzy] at h
          omega
      · by_cases hzy : z = y
        · exfalso
          simp only [idxOf, if_neg hzx, if_pos hzy] at h
          omega
        · have hx2 : x ∈ t := by
            rcases List.mem_cons.mp hx with h1 | h1
            · exact absurd h1.symm hzx
            · exact h1
          have hy2 : y ∈ t := by
            rcases List.mem_cons.mp hy with h1 | h1
            · exact absurd h1.symm hzy
            · exact h1
          simp only [idxOf, if_neg hzx, if_neg hzy] at h
          exact ih hx2 hy2 (by omega)

/-- Membership in `insertUniq`. -/
theorem mem_insertUniq {x y : ℕ} {l : List ℕ} :
    y ∈ insertUniq x l ↔ y = x ∨ y ∈ l := by
  induction l with
  | nil => simp [insertUniq]
  | cons z t ih =>
      simp only [insertUniq]
      split
      · next hxz =>
          subst hxz
          simp only [List.mem_cons]
          try tauto
      · split
        · simp only [List.mem_cons]
          try tauto
        · simp only [List.mem_cons, ih]
          try tauto

/-- Membership in `sortedDedup`. -/
theorem mem_sortedDedup {x : ℕ} {l : List ℕ} : x ∈ sortedDedup l ↔ x ∈ l := by
  have key : ∀ (l acc : List ℕ) (y : ℕ),
      y ∈ l.foldl (fun acc x => insertUniq x acc) acc ↔ y ∈ acc ∨ y ∈ l := by
    intro l
    induction l with
    | nil => intro acc y; simp
    | cons h t ih =>
        intro acc y
        simp only [List.foldl_cons, ih, mem_insertUniq, List.mem_cons]
        tauto
  simpa using key l [] x

/-- The interleaved `[open, close]` list has twice the length. -/
theorem length_pairJoin (l : List DataLoader.Cell) : (DataLoader.pairJoin l).length = 2 * l.length := by
  induction l with
  | nil => rfl
  | cons p t ih =>
      cases p with
      | mk a b =>
          simp only [DataLoader.pairJoin, List.length_cons, ih]
          omega

/-- `getD` of a replicated list. -/
theorem getD_replicate {α : Type} (n i : ℕ) (a d : α) (h : i < n) :
    (List.replicate n a).getD i d = a := by
  induction n generalizing i with
  | zero => omega
  | succ m ih =>
      cases i with
      | zero => rfl
      | succ k =>
          simp only [List.replicate, List.getD_cons_succ]
          exact ih k (Nat.lt_of_succ_lt_succ h)

/-- `getD` of a mapped list, inside the range. -/
theorem getD_map_lt {α β : Type} (f : α → β) (l : List α) (j : ℕ) (d : β) (d0 : α)
    (h : j < l.length) : (l.map f).getD j d = f (l.getD j d0) := by
  induction l generalizing j with
  | nil => simp at h
  | cons x t ih =>
      cases j with
      | zero => rfl
      | succ m =>
          simp only [List.map_cons, List.getD_cons_succ]
          exact ih m (Nat.lt_of_succ_lt_succ h)

/-- `getD` of `List.range`, inside the range. -/
theorem getD_range (n j d : ℕ) (h : j < n) : (List.range n).getD j d = j := by
  rw [List.getD_eq_getElem?_getD, List.getElem?_range h]
  rfl

/-- `getD` of a map over `List.range`. -/
theorem getD_range_map {α : Type} (f : ℕ → α) (n j : ℕ) (d : α) (h : j < n) :
    ((List.range n).map f).getD j d = f j := by
  rw [getD_map_lt f _ j d 0 (by simpa using h), getD_range n j 0 h]

/-- `getD` of a member list's element. -/
theorem getD_mem {α : Type} (l : List α) (i : ℕ) (d : α) (h : i < l.length) :
    l.getD i d ∈ l := by
  induction l generalizing i with
  | nil => simp at h
  | cons x t ih =>
      cases i with
      | zero => exact List.mem_cons_self x t
      | succ m =>
          simp only [List.getD_cons_succ]
          exact List.mem_cons_of_mem x (ih m (Nat.lt_of_succ_lt_succ h))

/-- Length of a flattened list of constant-length lists. -/
theorem flatten_length_const {α : Type} (LL : List (List α)) (k : ℕ)
    (h : ∀ l ∈ LL, l.length = k) : LL.flatten.length = LL.length * k := by
  induction LL with
  | nil => simp
  | cons hd tl ih =>
      simp only [List.flatten_cons, List.length_append, List.length_cons]
      rw [h hd (List.mem_cons_self hd tl), ih (fun l hl => h l (List.mem_cons_of_mem hd hl))]
      ring

/-- Flat index `i * k + j` into a flattened list of constant-length lists. -/
theorem flatten_getD {α : Type} (LL : List (List α)) (k i j : ℕ) (d : α)
    (h : ∀ l ∈ LL, l.length = k) (hi : i < LL.length) (hj : j < k) :
    LL.flatten.getD (i * k + j) d = (LL.getD i []).getD j d := by
  induction LL generalizing i with
  | nil => simp at hi
  | cons hd tl ih =>
      cases i with
      | zero =>
          have hhd : hd.length = k := h hd (List.mem_cons_self hd tl)
          simp only [List.flatten_cons, Nat.zero_mul, Nat.zero_add, List.getD_cons_zero]
          exact List.getD_append hd tl.flatten d j (by omega)
      | succ n =>
          have hhd : hd.length = k := h hd (List.mem_cons_self hd tl)
          simp only [List.flatten_cons, List.getD_cons_succ]
          have hk : k ≤ (n + 1) * k := by
            have h1 : 1 * k ≤ (n + 1) * k := Nat.mul_le_mul_right k (by omega)
            simpa using h1
          have hlen : hd.length ≤ (n + 1) * k + j := by
            rw [hhd]
            omega
          rw [List.getD_append_right hd tl.flatten d _ hlen]
          have harith : (n + 1) * k + j - hd.length = n * k + j := by
            rw [hhd, Nat.succ_mul]
            omega
          rw [harith]
          exact ih n (fun l hl => h l (List.mem_cons_of_mem hd hl)) (Nat.lt_of_succ_lt_succ hi)

open JSVal

/-- `Math.min(acc, NaN)` is NaN. -/
theorem jsMin2_nan_right (a : JSVal) : jsMin2 a nan = nan := by
  cases a <;> rfl

/-- `Math.max(acc, NaN)` is NaN. -/
theorem jsMax2_nan_right (a : JSVal) : jsMax2 a nan = nan := by
  cases a <;> rfl

/-- A NaN accumulator absorbs the whole `Math.min` fold. -/
theorem foldl_jsMin2_nan (l : List JSVal) : l.foldl jsMin2 nan = nan := by
  induction l with
  | nil => rfl
  | cons v t ih => simpa [jsMin2] using ih

/-- A NaN accumulator absorbs the whole `Math.max` fold. -/
theorem foldl_jsMax2_nan (l : List JSVal) : l.foldl jsMax2 nan = nan := by
  induction l with
  | nil => rfl
  | cons v t ih => simpa [jsMax2] using ih

/-- `Math.min` over a list containing NaN is NaN. -/
theorem jsMinList_nan_mem {l : List JSVal} (h : nan ∈ l) : jsMinList l = nan := by
  have key : ∀ (l : List JSVal) (acc : JSVal), nan ∈ l → l.foldl jsMin2 acc = nan := by
    intro l
    induction l with
    | nil => intro acc h; simp at h
    | cons v t ih =>
        intro acc hmem
        rcases List.mem_cons.mp hmem with hv | hv
        · subst hv
          simp only [List.foldl_cons, jsMin2_nan_right]
          exact foldl_jsMin2_nan t
        · exact ih (jsMin2 acc v) hv
  exact key l inf h

/-- `Math.max` over a list containing NaN is NaN. -/
theorem jsMaxList_nan_mem {l : List JSVal} (h : nan ∈ l) : jsMaxList l = nan := by
  have key : ∀ (l : List JSVal) (acc : JSVal), nan ∈ l → l.foldl jsMax2 acc = nan := by
    intro l
    induction l with
    | nil => intro acc h; simp at h
    | cons v t ih =>
        intro acc hmem
        rcases List.mem_cons.mp hmem with hv | hv
        · subst hv
          simp only [List.foldl_cons, jsMax2_nan_right]
          exact foldl_jsMax2_nan t
        · exact ih (jsMax2 acc v) hv
  exact key l ninf h

/-- `Math.min` over a list containing -Infinity is NaN or -Infinity. -/
theorem jsMinList_ninf_mem {l : List JSVal} (h : ninf ∈ l) :
    jsMinList l = nan ∨ jsMinList l = ninf := by
  have absorb : ∀ (l : List JSVal), l.foldl jsMin2 ninf = nan ∨ l.foldl jsMin2 ninf = ninf := by
    intro l
    induction l with
    | nil => exact Or.inr rfl
    | cons v t ih =>
        cases v with
        | nan => simp only [List.foldl_cons, jsMin2_nan_right]; exact Or.inl (foldl_jsMin2_nan t)
        | _ => simpa [jsMin2] using ih
  have key : ∀ (l : List JSVal) (acc : JSVal), ninf ∈ l →
      l.foldl jsMin2 acc = nan ∨ l.foldl jsMin2 acc = ninf := by
    intro l
    induction l with
    | nil => intro acc h; simp at h
    | cons v t ih =>
        intro acc hmem
        rcases List.mem_cons.mp hmem with hv | hv
        · subst hv
          cases acc with
          | nan => simp only [List.foldl_cons, jsMin2]; exact Or.inl (foldl_jsMin2_nan t)
          | num q => simp only [List.foldl_cons, jsMin2]; exact absorb t
          | inf => simp only [List.foldl_cons, jsMin2]; exact absorb t
          | ninf => simp only [List.foldl_cons, jsMin2]; exact absorb t
        · exact ih (jsMin2 acc v) hv
  exact key l inf h

/-- `Math.max` over a list containing Infinity is NaN or Infinity. -/
theorem jsMaxList_inf_mem {l : List JSVal} (h : inf ∈ l) :
    jsMaxList l = nan ∨ jsMaxList l = inf := by
  have absorb : ∀ (l : List JSVal), l.foldl jsMax2 inf = nan ∨ l.foldl jsMax2 inf = inf := by
    intro l
    induction l with
    | nil => exact Or.inr rfl
    | cons v t ih =>
        cases v with
        | nan => simp only [List.foldl_cons, jsMax2_nan_right]; exact Or.inl (foldl_jsMax2_nan t)
        | _ => simpa [jsMax2] using ih
  have key : ∀ (l : List JSVal) (acc : JSVal), inf ∈ l →
      l.foldl jsMax2 acc = nan ∨ l.foldl jsMax2 acc = inf := by
    intro l
    induction l with
    | nil => intro acc h; simp at h
    | cons v t ih =>
        intro acc hmem
        rcases List.mem_cons.mp hmem with hv | hv
        · subst hv
          cases acc with
          | nan => simp only [List.foldl_cons, jsMax2]; exact Or.inl (foldl_jsMax2_nan t)
          | num q => simp only [List.foldl_cons, jsMax2]; exact absorb t
          | inf => simp only [List.foldl_cons, jsMax2]; exact absorb t
          | ninf => simp only [List.foldl_cons, jsMax2]; exact absorb t
        · exact ih (jsMax2 acc v) hv
  exact key l ninf h

/-- When the computed min and max are both finite, every column value is a
finite number. -/
theorem all_num_of_stats {l : List JSVal} {mn mx : ℚ} (hmin : jsMinList l = num mn)
    (hmax : jsMaxList l = num mx) : ∀ v ∈ l, ∃ q, v = num q := by
  intro v hv
  cases v with
  | num q => exact ⟨q, rfl⟩
  | nan => rw [jsMinList_nan_mem hv] at hmin; exact absurd hmin (by simp)
  | inf =>
      rcases jsMaxList_inf_mem hv with h | h <;> rw [h] at hmax <;> exact absurd hmax (by simp)
  | ninf =>
      rcases jsMinList_ninf_mem hv with h | h <;> rw [h] at hmin <;> exact absurd hmin (by simp)

/-- The `Math.min` fold over an all-finite column computes the fold of the
rational minimum over the observed values. -/
theorem foldl_jsMin2_num (l : List JSVal) (a : ℚ) (h : ∀ v ∈ l, ∃ q, v = num q) :
    l.foldl jsMin2 (num a) = num ((SpecSide.observedVals l).foldl min a) := by
  induction l generalizing a with
  | nil => rfl
  | cons v t ih =>
      obtain ⟨q, rfl⟩ := h v (List.mem_cons_self v t)
      simp only [List.foldl_cons, jsMin2, SpecSide.observedVals, List.filterMap_cons]
      exact ih (min a q) (fun w hw => h w (List.mem_cons_of_mem _ hw))

/-- The `Math.max` fold over an all-finite column computes the fold of the
rational maximum over the observed values. -/
theorem foldl_jsMax2_num (l : List JSVal) (a : ℚ) (h : ∀ v ∈ l, ∃ q, v = num q) :
    l.foldl jsMax2 (num a) = num ((SpecSide.observedVals l).foldl max a) := by
  induction l generalizing a with
  | nil => rfl
  | cons v t ih =>
      obtain ⟨q, rfl⟩ := h v (List.mem_cons_self v t)
      simp only [List.foldl_cons, jsMax2, SpecSide.observedVals, List.filterMap_cons]
      exact ih (max a q) (fun w hw => h w (List.mem_cons_of_mem _ hw))

/-- On an all-finite non-empty column, `Math.min` computes exactly the
spec-side minimum over the observations. -/
theorem jsMinList_num_spec {l : List JSVal} (h : ∀ v ∈ l, ∃ q, v = num q) (hne : l ≠ []) :
    ∃ m, jsMinList l = num m ∧ SpecSide.specMin l = some m := by
  cases l with
  | nil => exact absurd rfl hne
  | cons v t =>
      obtain ⟨q, rfl⟩ := h v (List.mem_cons_self v t)
      refine ⟨(SpecSide.observedVals t).foldl min q, ?_, ?_⟩
      · simp only [jsMinList, List.foldl_cons, jsMin2]
        exact foldl_jsMin2_num t q (fun w hw => h w (List.mem_cons_of_mem _ hw))
      · simp [SpecSide.specMin, SpecSide.observedVals, List.filterMap_cons, List.min?]

/-- On an all-finite non-empty column, `Math.max` computes exactly the
spec-side maximum over the observations. -/
theorem jsMaxList_num_spec {l : List JSVal} (h : ∀ v ∈ l, ∃ q, v = num q) (hne : l ≠ []) :
    ∃ m, jsMaxList l = num m ∧ SpecSide.specMax l = some m := by
  cases l with
  | nil => exact absurd rfl hne
  | cons v t =>
      obtain ⟨q, rfl⟩ := h v (List.mem_cons_self v t)
      refine ⟨(SpecSide.observedVals t).foldl max q, ?_, ?_⟩
      · simp only [jsMaxList, List.foldl_cons, jsMax2]
        exact foldl_jsMax2_num t q (fun w hw => h w (List.mem_cons_of_mem _ hw))
      · simp [SpecSide.specMax, SpecSide.observedVals, List.filterMap_cons, List.max?]

/-- The rational `min` fold is below its base. -/
theorem foldl_min_le_base (qs : List ℚ) (a : ℚ) : qs.foldl min a ≤ a := by
  induction qs generalizing a with
  | nil => exact le_refl a
  | cons q t ih => exact le_trans (ih (min a q)) (min_le_left a q)

/-- The rational `min` fold is below every element. -/
theorem foldl_min_le_mem (qs : List ℚ) (a q : ℚ) (h : q ∈ qs) : qs.foldl min a ≤ q := by
  induction qs generalizing a with
  | nil => simp at h
  | cons p t ih =>
      rcases List.mem_cons.mp h with hp | hp
      · subst hp
        exact le_trans (foldl_min_le_base t (min a q)) (min_le_right a q)
      · exact ih (min a p) hp

/-- The rational `min` fold is its base or some element. -/
theorem foldl_min_mem (qs : List ℚ) (a : ℚ) : qs.foldl min a = a ∨ qs.foldl min a ∈ qs := by
  induction qs generalizing a with
  | nil => exact Or.inl rfl
  | cons q t ih =>
      rcases ih (min a q) with h | h
      · rcases min_choice a q with hm | hm
        · exact Or.inl (by rw [List.foldl_cons, h, hm])
        · refine Or.inr ?_
          rw [List.foldl_cons, h, hm]
          exact List.mem_cons_self q t
      · exact Or.inr (List.mem_cons_of_mem q h)

/-- The rational `max` fold is above its base. -/
theorem foldl_max_ge_base (qs : List ℚ) (a : ℚ) : a ≤ qs.foldl max a := by
  induction qs generalizing a with
  | nil => exact le_refl a
  | cons q t ih => exact le_trans (le_max_left a q) (ih (max a q))

/-- The rational `max` fold is above every element. -/
theorem foldl_max_ge_mem (qs : List ℚ) (a q : ℚ) (h : q ∈ qs) : q ≤ qs.foldl max a := by
  induction qs generalizing a with
  | nil => simp at h
  | cons p t ih =>
      rcases List.mem_cons.mp h with hp | hp
      · subst hp
        exact le_trans (le_max_right a q) (foldl_max_ge_base t (max a q))
      · exact ih (max a p) hp

/-- The rational `max` fold is its base or some element. -/
theorem foldl_max_mem (qs : List ℚ) (a : ℚ) : qs.foldl max a = a ∨ qs.foldl max a ∈ qs := by
  induction qs generalizing a with
  | nil => exact Or.inl rfl
  | cons q t ih =>
      rcases ih (max a q) with h | h
      · rcases max_choice a q with hm | hm
        · exact Or.inl (by rw [List.foldl_cons, h, hm])
        · refine Or.inr ?_
          rw [List.foldl_cons, h, hm]
          exact List.mem_cons_self q t
      · exact Or.inr (List.mem_cons_of_mem q h)

/-- Characterization of `List.min?`: the value is an element and a lower
bound. -/
theorem min?_spec {qs : List ℚ} {m : ℚ} (h : qs.min? = some m) :
    m ∈ qs ∧ ∀ q ∈ qs, m ≤ q := by
  cases qs with
  | nil => simp [List.min?] at h
  | cons q t =>
      simp only [List.min?, Option.some.injEq] at h
      subst h
      constructor
      · rcases foldl_min_mem t q with h1 | h1
        · rw [h1]; exact List.mem_cons_self q t
        · exact List.mem_cons_of_mem q h1
      · intro p hp
        rcases List.mem_cons.mp hp with h1 | h1
        · rw [h1]; exact foldl_min_le_base t q
        · exact foldl_min_le_mem t q p h1

/-- Characterization of `List.max?`: the value is an element and an upper
bound. -/
theorem max?_spec {qs : List ℚ} {m : ℚ} (h : qs.max? = some m) :
    m ∈ qs ∧ ∀ q ∈ qs, q ≤ m := by
  cases qs with
  | nil => simp [List.max?] at h
  | cons q t =>
      simp only [List.max?, Option.some.injEq] at h
      subst h
      constructor
      · rcases foldl_max_mem t q with h1 | h1
        · rw [h1]; exact List.mem_cons_self q t
        · exact List.mem_cons_of_mem q h1
      · intro p hp
        rcases List.mem_cons.mp hp with h1 | h1
        · rw [h1]; exact foldl_max_ge_base t q
        · exact foldl_max_ge_mem t q p h1

/-- `getD` past the end returns the default. -/
theorem getD_oob {α : Type} (l : List α) (i : ℕ) (d : α) (h : l.length ≤ i) :
    l.getD i d = d := by
  induction l generalizing i with
  | nil => cases i <;> rfl
  | cons x t ih =>
      cases i with
      | zero => simp at h
      | succ n =>
          simp only [List.getD_cons_succ]
          exact ih n (Nat.le_of_succ_le_succ h)

/-- Members of `updAt l i a` are `a` or members of `l`. -/
theorem mem_updAt {α : Type} {x a : α} {l : List α} {i : ℕ} (h : x ∈ updAt l i a) :
    x = a ∨ x ∈ l := by
  induction l generalizing i with
  | nil => simp [updAt] at h
  | cons y t ih =>
      cases i with
      | zero =>
          rcases List.mem_cons.mp h with h1 | h1
          · exact Or.inl h1
          · exact Or.inr (List.mem_cons_of_mem y h1)
      | succ n =>
          rcases List.mem_cons.mp h with h1 | h1
          · exact Or.inr (h1 ▸ List.mem_cons_self y t)
          · rcases ih h1 with h2 | h2
            · exact Or.inl h2
            · exact Or.inr (List.mem_cons_of_mem y h2)

namespace DataLoader

/-- `_scale` of the NaN sentinel is the 0.5 fallback. -/
theorem scale_nan (mn mx : JSVal) : scale JSVal.nan mn mx = JSVal.half := rfl

/-- `_scale` under a degenerate range (`max === min`) is the 0.5 fallback. -/
theorem scale_eqq {mn mx : JSVal} (h : JSVal.jsEqq mx mn = true) (v : JSVal) :
    scale v mn mx = JSVal.half := by
  by_cases hv : v = JSVal.nan <;> simp [scale, hv, h]

/-- `_scale` with NaN statistics: missing values map to 0.5, present values
to NaN. -/
theorem scale_nan_stats (v : JSVal) :
    scale v JSVal.nan JSVal.nan = if v = JSVal.nan then JSVal.half else JSVal.nan := by
  cases v <;> simp [scale, JSVal.jsEqq, JSVal.jsSub, JSVal.jsDiv]

/-- JS `>` is false when both operands are 0.5-or-NaN. -/
theorem jsGt_pair_false {a b : JSVal} (ha : a = JSVal.half ∨ a = JSVal.nan)
    (hb : b = JSVal.half ∨ b = JSVal.nan) : JSVal.jsGt a b = false := by
  rcases ha with ha | ha <;> rcases hb with hb | hb <;> subst ha <;> subst hb <;>
    simp [JSVal.jsGt, JSVal.jsLt, JSVal.half]

/-- `_normalize` keeps the date-axis length. -/
theorem normalizeMatrix_length (sN : ℕ) (m : Mat) :
    (normalizeMatrix sN m).length = m.length := by
  simp [normalizeMatrix]

/-- The normalized cell at an in-range position. -/
theorem cellAt_normalizeMatrix {m : Mat} {sN d s : ℕ} (hd : d < m.length) (hs : s < sN) :
    cellAt (normalizeMatrix sN m) d s =
      (scale (cellAt m d s).1 (JSVal.jsMinList (colOpens m s)) (JSVal.jsMaxList (colOpens m s)),
       scale (cellAt m d s).2 (JSVal.jsMinList (colCloses m s)) (JSVal.jsMaxList (colCloses m s))) := by
  unfold cellAt normalizeMatrix
  rw [getD_map_lt _ m d [] [] hd, getD_range_map _ sN s nanCell hs]

/-- The normalized cell at an out-of-range date is the NaN sentinel. -/
theorem cellAt_normalizeMatrix_oob_d {m : Mat} {sN d s : ℕ} (hd : m.length ≤ d) :
    cellAt (normalizeMatrix sN m) d s = nanCell := by
  unfold cellAt normalizeMatrix
  rw [getD_oob _ d [] (by simpa using hd)]
  rfl

/-- The normalized cell at an out-of-range symbol is the NaN sentinel. -/
theorem cellAt_normalizeMatrix_oob_s {m : Mat} {sN d s : ℕ} (hs : sN ≤ s) :
    cellAt (normalizeMatrix sN m) d s = nanCell := by
  unfold cellAt normalizeMatrix
  by_cases hd : d < m.length
  · rw [getD_map_lt _ m d [] [] hd, getD_oob _ s nanCell (by simpa using hs)]
  · rw [getD_oob _ d [] (by simp; omega)]
    rfl

/-- The open column of the normalized matrix is the scaled open column. -/
theorem colOpens_normalizeMatrix {sN s : ℕ} (m : Mat) (hs : s < sN) :
    colOpens (normalizeMatrix sN m) s =
      (colOpens m s).map (fun v =>
        scale v (JSVal.jsMinList (colOpens m s)) (JSVal.jsMaxList (colOpens m s))) := by
  unfold colOpens normalizeMatrix
  rw [List.map_map, List.map_map]
  apply List.map_congr_left
  intro day _
  simp only [Function.comp_apply]
  rw [getD_range_map _ sN s nanCell hs]
  rfl

/-- The close column of the normalized matrix is the scaled close column. -/
theorem colCloses_normalizeMatrix {sN s : ℕ} (m : Mat) (hs : s < sN) :
    colCloses (normalizeMatrix sN m) s =
      (colCloses m s).map (fun v =>
        scale v (JSVal.jsMinList (colCloses m s)) (JSVal.jsMaxList (colCloses m s))) := by
  unfold colCloses normalizeMatrix
  rw [List.map_map, List.map_map]
  apply List.map_congr_left
  intro day _
  simp only [Function.comp_apply]
  rw [getD_range_map _ sN s nanCell hs]
  rfl

/-- `applyRow` keeps the date-axis length. -/
theorem applyRow_length (dates symbols : List ℕ) (m : Mat) (r : Row) :
    (applyRow dates symbols m r).length = m.length := updAt_length m _ _

/-- `applyRow` keeps every row's length. -/
theorem applyRow_row_length {dates symbols : List ℕ} {m : Mat} {r : Row} {k : ℕ}
    (h : ∀ row ∈ m, row.length = k) :
    ∀ row ∈ applyRow dates symbols m r, row.length = k := by
  intro row hrow
  by_cases hdi : idxOf r.date dates < m.length
  · rcases mem_updAt hrow with h1 | h1
    · subst h1
      rw [updAt_length]
      exact h _ (getD_mem m _ [] hdi)
    · exact h row h1
  · rw [applyRow, updAt_oob m _ _ (by omega)] at hrow
    exact h row hrow

/-- One `applyRow` step, seen from a fixed cell `(dt, sy)`: the cell takes
the record's values when the record keys match, and is untouched
otherwise. -/
theorem cellAt_applyRow {dates symbols : List ℕ} {m : Mat} (r : Row) {dt sy : ℕ}
    (hdt : dt ∈ dates) (hsy : sy ∈ symbols) (hlen : m.length = dates.length)
    (hrows : ∀ row ∈ m, row.length = symbols.length) :
    cellAt (applyRow dates symbols m r) (idxOf dt dates) (idxOf sy symbols) =
      (if r.date = dt ∧ r.symbol = sy then (r.openV, r.closeV)
       else cellAt m (idxOf dt dates) (idxOf sy symbols)) := by
  have hi : idxOf dt dates < dates.length := idxOf_lt_length hdt
  have hj : idxOf sy symbols < symbols.length := idxOf_lt_length hsy
  by_cases hkey : r.date = dt ∧ r.symbol = sy
  · rw [if_pos hkey]
    obtain ⟨h1, h2⟩ := hkey
    unfold applyRow cellAt
    rw [h1, h2]
    rw [getD_updAt_eq m _ _ [] (by omega)]
    have hrow : (m.getD (idxOf dt dates) []).length = symbols.length :=
      hrows _ (getD_mem m _ [] (by omega))
    rw [getD_updAt_eq _ _ _ nanCell (by omega)]
  · rw [if_neg hkey]
    unfold applyRow cellAt
    by_cases hd : r.date = dt
    · have hs : r.symbol ≠ sy := fun hs => hkey ⟨hd, hs⟩
      rw [hd]
      rw [getD_updAt_eq m _ _ [] (by omega)]
      by_cases hsym : r.symbol ∈ symbols
      · have hne : idxOf r.symbol symbols ≠ idxOf sy symbols :=
          fun he => hs (idxOf_inj hsym hsy he)
        rw [getD_updAt_ne _ _ _ _ nanCell hne]
      · have hrow : (m.getD (idxOf dt dates) []).length = symbols.length :=
          hrows _ (getD_mem m _ [] (by omega))
        rw [updAt_oob _ _ _ (by rw [hrow, idxOf_eq_length hsym])]
    · by_cases hdm : r.date ∈ dates
      · have hne : idxOf r.date dates ≠ idxOf dt dates :=
          fun he => hd (idxOf_inj hdm hdt he)
        rw [getD_updAt_ne _ _ _ _ [] hne]
      · rw [updAt_oob _ _ _ (by rw [hlen, idxOf_eq_length hdm])]

/-- The pivot fold, seen from a fixed cell: last-write-wins. -/
theorem foldl_applyRow_cell (rows : List Row) {dates symbols : List ℕ} (m : Mat) {dt sy : ℕ}
    (hdt : dt ∈ dates) (hsy : sy ∈ symbols) (hlen : m.length = dates.length)
    (hrows : ∀ row ∈ m, row.length = symbols.length) :
    cellAt (rows.foldl (applyRow dates symbols) m) (idxOf dt dates) (idxOf sy symbols) =
      (match lastMatch dt sy rows with
       | some r => (r.openV, r.closeV)
       | none => cellAt m (idxOf dt dates) (idxOf sy symbols)) := by
  induction rows generalizing m with
  | nil => rfl
  | cons r rest ih =>
      have hlen2 : (applyRow dates symbols m r).length = dates.length := by
        rw [applyRow_length, hlen]
      have hrows2 : ∀ row ∈ applyRow dates symbols m r, row.length = symbols.length :=
        applyRow_row_length hrows
      rw [List.foldl_cons, ih (applyRow dates symbols m r) hlen2 hrows2]
      rw [cellAt_applyRow r hdt hsy hlen hrows]
      simp only [lastMatch]
      cases lastMatch dt sy rest with
      | some x => rfl
      | none =>
          by_cases hkey : r.date = dt ∧ r.symbol = sy
          · rw [if_pos hkey, if_pos hkey]
          · rw [if_neg hkey, if_neg hkey]

/-- Every cell of the initial matrix is the NaN sentinel. -/
theorem cellAt_emptyMatrix {dN sN d s : ℕ} (hd : d < dN) (hs : s < sN) :
    cellAt (emptyMatrix dN sN) d s = nanCell := by
  unfold cellAt emptyMatrix
  rw [getD_replicate dN d _ [] hd, getD_replicate sN s _ nanCell hs]

/-- The pivoted matrix keeps one row per date. -/
theorem rawMatrix_length (rows : List Row) :
    (rawMatrix rows).length = (datesOf rows).length := by
  have key : ∀ (l : List Row) (m : Mat),
      (l.foldl (applyRow (datesOf rows) (symbolsOf rows)) m).length = m.length := by
    intro l
    induction l with
    | nil => intro m; rfl
    | cons r rest ih =>
        intro m
        rw [List.foldl_cons, ih, applyRow_length]
  rw [rawMatrix, key]
  simp [emptyMatrix]

/-- Every row of the pivoted matrix keeps one cell per symbol. -/
theorem rawMatrix_row_length (rows : List Row) :
    ∀ row ∈ rawMatrix rows, row.length = (symbolsOf rows).length := by
  have key : ∀ (l : List Row) (m : Mat),
      (∀ row ∈ m, row.length = (symbolsOf rows).length) →
      ∀ row ∈ l.foldl (applyRow (datesOf rows) (symbolsOf rows)) m,
        row.length = (symbolsOf rows).length := by
    intro l
    induction l with
    | nil => intro m h; exact h
    | cons r rest ih =>
        intro m h
        rw [List.foldl_cons]
        exact ih _ (applyRow_row_length h)
  refine key rows _ ?_
  intro row hrow
  rw [List.eq_of_mem_replicate hrow]
  simp

/-- The pivoted cell of `loadCSV` holds the values of the LAST record for
its (date, symbol) pair, or the NaN sentinel when no record matches. -/
theorem rawMatrix_cell (rows : List Row) {dt sy : ℕ} (hdt : dt ∈ datesOf rows)
    (hsy : sy ∈ symbolsOf rows) :
    cellAt (rawMatrix rows) (idxOf dt (datesOf rows)) (idxOf sy (symbolsOf rows)) =
      (match lastMatch dt sy rows with
       | some r => (r.openV, r.closeV)
       | none => nanCell) := by
  rw [rawMatrix, foldl_applyRow_cell rows _ hdt hsy (by simp [emptyMatrix])
    (fun row hrow => by rw [List.eq_of_mem_replicate hrow]; simp)]
  cases lastMatch dt sy rows with
  | some x => rfl
  | none =>
      exact cellAt_emptyMatrix (idxOf_lt_length hdt) (idxOf_lt_length hsy)

/-- Each per-date feature vector has `2 × |symbols|` entries. -/
theorem dayVec_length (L : Loader) (w : ℕ) : (dayVec L w).length = 2 * L.symbols.length := by
  rw [dayVec, length_pairJoin]
  simp

/-- Each feature sequence has `windowLen` rows. -/
theorem xSeq_length (L : Loader) (wLen d : ℕ) : (xSeq L wLen d).length = wLen := by
  simp [xSeq]

/-- Every row of a feature sequence is a day vector. -/
theorem xSeq_mem (L : Loader) (wLen d : ℕ) :
    ∀ v ∈ xSeq L wLen d, v.length = 2 * L.symbols.length := by
  intro v hv
  rw [xSeq] at hv
  obtain ⟨j, _, rfl⟩ := List.mem_map.mp hv
  exact dayVec_length L _

/-- Each label vector has `|symbols| × horizon` entries. -/
theorem labelVec_length (L : Loader) (ahead d : ℕ) :
    (labelVec L ahead d).length = L.symbols.length * ahead := by
  rw [labelVec]
  rw [flatten_length_const _ ahead ?_]
  · simp
  · intro l hl
    obtain ⟨s, _, rfl⟩ := List.mem_map.mp hl
    simp

/-- The label entry at flat position `s * ahead + t` is the up/down
indicator of symbol `s` at offset `t + 1`. -/
theorem labelVec_getD {L : Loader} {ahead d s t : ℕ} (hs : s < L.symbols.length)
    (ht : t < ahead) :
    (labelVec L ahead d).getD (s * ahead + t) 0 = upLabel L d s (t + 1) := by
  rw [labelVec]
  rw [flatten_getD _ ahead s t 0 ?_ (by simpa using hs) ht]
  · rw [getD_range_map _ _ s [] hs, getD_range_map _ _ t 0 ht]
  · intro l hl
    obtain ⟨u, _, rfl⟩ := List.mem_map.mp hl
    simp

/-- Sample count of the builder loop. -/
theorem buildX_length (L : Loader) (wLen ahead : ℕ) :
    (buildX L wLen ahead).length = L.dates.length - ahead - wLen := by
  simp [buildX, anchors]

/-- Label-list count of the builder loop. -/
theorem buildY_length (L : Loader) (wLen ahead : ℕ) :
    (buildY L wLen ahead).length = L.dates.length - ahead - wLen := by
  simp [buildY, anchors]

/-- The emitted anchors are exactly the positions with a full window before
them and `horizon` dates after them. -/
theorem mem_anchors (L : Loader) (wLen ahead d : ℕ) :
    d ∈ anchors L wLen ahead ↔ wLen ≤ d ∧ d + ahead < L.dates.length := by
  rw [anchors, List.mem_range'_1]
  omega

/-- The label vector of the `i`-th sample. -/
theorem buildY_getD {L : Loader} {wLen ahead i : ℕ} (hi : i < (anchors L wLen ahead).length) :
    (buildY L wLen ahead).getD i [] = labelVec L ahead ((anchors L wLen ahead).getD i 0) := by
  rw [buildY, getD_map_lt _ _ i [] 0 hi]

end DataLoader

namespace StockLoader

/-- Each variant-B feature vector has `2 × |symbols|` entries (missing
cells contribute the `[0, 0]` padding). -/
theorem featureVec_length (recs : List SRec) (dt : ℕ) :
    (featureVec recs dt).length = 2 * (sSymbols recs).length := by
  rw [featureVec]
  rw [flatten_length_const _ 2 ?_]
  · simp [Nat.mul_comm]
  · intro l hl
    obtain ⟨sy, _, rfl⟩ := List.mem_map.mp hl
    cases h : normalizedCell recs dt sy with
    | none => simp [h]
    | some c =>
        cases c with
        | mk o cl => simp [h]

/-- Each variant-B feature sequence has 12 rows. -/
theorem sequenceAt_length (recs : List SRec) (i : ℕ) : (sequenceAt recs i).length = 12 := by
  simp [sequenceAt]

/-- Every row of a variant-B feature sequence is a feature vector. -/
theorem sequenceAt_mem (recs : List SRec) (i : ℕ) :
    ∀ v ∈ sequenceAt recs i, v.length = 2 * (sSymbols recs).length := by
  intro v hv
  rw [sequenceAt] at hv
  obtain ⟨j, _, rfl⟩ := List.mem_map.mp hv
  exact featureVec_length recs _

/-- Each variant-B target vector has `|symbols| × 3` entries. -/
theorem targetVec_length (recs : List SRec) (i : ℕ) :
    (targetVec recs i).length = (sSymbols recs).length * 3 := by
  rw [targetVec]
  rw [flatten_length_const _ (sSymbols recs).length ?_]
  · simp [Nat.mul_comm]
  · intro l hl
    obtain ⟨o, _, rfl⟩ := List.mem_map.mp hl
    simp

/-- The variant-B target entry at flat position `o * |symbols| + s` (the
DAY-major layout) is the entry for offset `o + 1` and the `s`-th symbol. -/
theorem targetVec_getD {recs : List SRec} {i o s : ℕ} (ho : o < 3)
    (hs : s < (sSymbols recs).length) :
    (targetVec recs i).getD (o * (sSymbols recs).length + s) 0 =
      targetEntry recs i (o + 1) ((sSymbols recs).getD s 0) := by
  rw [targetVec]
  rw [flatten_getD _ (sSymbols recs).length o s 0 ?_ (by simpa using ho) hs]
  · rw [getD_range_map _ _ o [] ho, getD_map_lt _ _ s 0 0 hs]
  · intro l hl
    obtain ⟨u, _, rfl⟩ := List.mem_map.mp hl
    simp

/-- Variant-B sample count. -/
theorem sequences_length (recs : List SRec) :
    (sequences recs).length = (sDates recs).length - 12 - 3 := by
  simp [sequences, seqCount]

/-- Variant-B target count. -/
theorem targets_length (recs : List SRec) :
    (targets recs).length = (sDates recs).length - 12 - 3 := by
  simp [targets, seqCount]

/-- The target vector of the `i`-th variant-B sample. -/
theorem targets_getD {recs : List SRec} {i : ℕ} (hi : i < seqCount recs) :
    (targets recs).getD i [] = targetVec recs i := by
  rw [targets, getD_map_lt _ _ i [] 0 (by simpa using hi), getD_range _ _ 0 hi]

end StockLoader

/-- `lastMatch` is `none` when no record matches. -/
theorem lastMatch_none {dt sy : ℕ} {rows : List DataLoader.Row}
    (h : ∀ r ∈ rows, ¬(r.date = dt ∧ r.symbol = sy)) :
    DataLoader.lastMatch dt sy rows = none := by
  induction rows with
  | nil => rfl
  | cons r rest ih =>
      simp only [DataLoader.lastMatch, ih (fun x hx => h x (List.mem_cons_of_mem r hx))]
      rw [if_neg (h r (List.mem_cons_self r rest))]

/-- C1 — Window/Label Builder sample count and shapes: both variants emit
one sample per anchor position that has a full `windowLen` window before it
and `horizon` dates after it, i.e. `max (0, |dates| - windowLen - horizon)`
samples, each feature sequence shaped `windowLen × (2 × |symbols|)` and each
label vector of length `|symbols| × horizon`; on the 20-day 2-symbol CSV
with `windowLen = 12`, `horizon = 3` exactly 5 samples arise, shaped 12×4
with labels of length 6. -/
theorem claim_C1 :
    (∀ (L : DataLoader.Loader) (wLen ahead : ℕ),
        (DataLoader.buildX L wLen ahead).length = L.dates.length - wLen - ahead ∧
        (DataLoader.buildY L wLen ahead).length = L.dates.length - wLen - ahead ∧
        (∀ d, d ∈ DataLoader.anchors L wLen ahead ↔ wLen ≤ d ∧ d + ahead < L.dates.length) ∧
        (∀ x ∈ DataLoader.buildX L wLen ahead,
            x.length = wLen ∧ ∀ v ∈ x, v.length = 2 * L.symbols.length) ∧
        (∀ y ∈ DataLoader.buildY L wLen ahead, y.length = L.symbols.length * ahead)) ∧
    (∀ recs : List StockLoader.SRec,
        (StockLoader.sequences recs).length = (StockLoader.sDates recs).length - 12 - 3 ∧
        (∀ x ∈ StockLoader.sequences recs,
            x.length = 12 ∧ ∀ v ∈ x, v.length = 2 * (StockLoader.sSymbols recs).length) ∧
        (∀ y ∈ StockLoader.targets recs, y.length = (StockLoader.sSymbols recs).length * 3) ∧
        (∀ d, (12 ≤ d ∧ d + 3 < (StockLoader.sDates recs).length) ↔
            ∃ i < (StockLoader.sequences recs).length, d = i + 12)) ∧
    ((DataLoader.buildX (DataLoader.loadRows TestData.rowsA20) 12 3).length = 5 ∧
     (∀ x ∈ DataLoader.buildX (DataLoader.loadRows TestData.rowsA20) 12 3,
         x.length = 12 ∧ ∀ v ∈ x, v.length = 4) ∧
     (∀ y ∈ DataLoader.buildY (DataLoader.loadRows TestData.rowsA20) 12 3, y.length = 6)) := by
  refine ⟨?_, ?_, by decide⟩
  · intro L wLen ahead
    refine ⟨by rw [DataLoader.buildX_length]; omega, by rw [DataLoader.buildY_length]; omega,
      fun d => DataLoader.mem_anchors L wLen ahead d, ?_, ?_⟩
    · intro x hx
      obtain ⟨d, _, rfl⟩ := List.mem_map.mp hx
      exact ⟨DataLoader.xSeq_length L wLen d, DataLoader.xSeq_mem L wLen d⟩
    · intro y hy
      obtain ⟨d, _, rfl⟩ := List.mem_map.mp hy
      exact DataLoader.labelVec_length L ahead d
  · intro recs
    refine ⟨StockLoader.sequences_length recs, ?_, ?_, ?_⟩
    · intro x hx
      obtain ⟨i, _, rfl⟩ := List.mem_map.mp hx
      exact ⟨StockLoader.sequenceAt_length recs i, StockLoader.sequenceAt_mem recs i⟩
    · intro y hy
      obtain ⟨i, _, rfl⟩ := List.mem_map.mp hy
      exact StockLoader.targetVec_length recs i
    · intro d
      rw [StockLoader.sequences_length]
      constructor
      · intro hd
        exact ⟨d - 12, by omega, by omega⟩
      · rintro ⟨i, hi, rfl⟩
        omega

/-- Closed instance of C1: the concrete first sample of the 20-day CSV. -/
theorem claim_C1_inst :
    DataLoader.xSeq (DataLoader.loadRows TestData.rowsA20) 12 12 ∈
      DataLoader.buildX (DataLoader.loadRows TestData.rowsA20) 12 3 ∧
    (DataLoader.xSeq (DataLoader.loadRows TestData.rowsA20) 12 12).length = 12 ∧
    (12 ∈ DataLoader.anchors (DataLoader.loadRows TestData.rowsA20) 12 3 ↔
      12 ≤ 12 ∧ 12 + 3 < (DataLoader.loadRows TestData.rowsA20).dates.length) := by
  have hmem : DataLoader.xSeq (DataLoader.loadRows TestData.rowsA20) 12 12 ∈
      DataLoader.buildX (DataLoader.loadRows TestData.rowsA20) 12 3 := by decide
  exact ⟨hmem,
    ((claim_C1.1 (DataLoader.loadRows TestData.rowsA20) 12 3).2.2.2.1 _ hmem).1,
    (claim_C1.1 (DataLoader.loadRows TestData.rowsA20) 12 3).2.2.1 12⟩

/-- C6 — counterexample: the `StockDataLoader` CSV parser performs no
header validation at all; with the `Close` column absent it still parses
one record (whose `Close` field is `undefined`) instead of failing. -/
theorem claim_C6_cex :
    (StockLoader.parseCSV TestData.hdrsNoClose TestData.lineNoClose).length = 1 ∧
    (StockLoader.parseCSV TestData.hdrsNoClose TestData.lineNoClose).map
      (fun e => e.closeF) = [none] := by decide

/-- C6 (amended) — in the `DataLoader` variant a header row lacking any
required column makes `loadCSV` fail with the FIXED message naming the
required columns (before anything is parsed or pivoted), and a complete
header row makes it proceed; the `StockDataLoader` variant never validates
and always parses one entry per data line. -/
theorem claim_C6 :
    (∀ (headers : List DataLoader.Header) (rows : List DataLoader.Row),
        (∃ c ∈ DataLoader.requiredCols, c ∉ headers) →
        DataLoader.loadCSV headers rows = Except.error DataLoader.schemaErrMsg) ∧
    (∀ (headers : List DataLoader.Header) (rows : List DataLoader.Row),
        (∀ c ∈ DataLoader.requiredCols, c ∈ headers) →
        DataLoader.loadCSV headers rows = Except.ok (DataLoader.loadRows rows)) ∧
    (∀ (headers : List DataLoader.Header) (rows : List (List ℕ)),
        (StockLoader.parseCSV headers rows).length = rows.length) := by
  refine ⟨?_, ?_, ?_⟩
  · intro headers rows hmiss
    rw [DataLoader.loadCSV, if_neg]
    intro hall
    obtain ⟨c, hc, hnot⟩ := hmiss
    rw [List.all_eq_true] at hall
    exact hnot (by simpa using hall c hc)
  · intro headers rows hall
    rw [DataLoader.loadCSV, if_pos]
    rw [List.all_eq_true]
    intro c hc
    simpa using hall c hc
  · intro headers rows
    simp [StockLoader.parseCSV]

/-- Closed instance of C6: the header row `[Date, Symbol, Open]` is
rejected by the `DataLoader` variant. -/
theorem claim_C6_inst :
    DataLoader.loadCSV TestData.hdrsNoClose [] = Except.error DataLoader.schemaErrMsg :=
  claim_C6.1 TestData.hdrsNoClose []
    ⟨DataLoader.Header.closeH, by decide, by decide⟩

/-- C7 — counterexample: on a 5-date dataset (fewer than
`windowLen + horizon = 15`) the builder yields zero samples and the split
silently returns empty train/test pieces wrapped in `ok`; no
`InsufficientDataError` (or any error) is raised. -/
theorem claim_C7_cex :
    (DataLoader.buildDatasetE true (DataLoader.loadRows TestData.rows5) 12 3
      (Rat.divInt 1 5)).toOption =
      some { xtrain := [], ytrain := [], xtest := [], ytest := [] } := by decide

/-- C7 (amended) — with fewer than `windowLen + horizon` dates both
variants yield zero samples, and the splitting stage then silently
produces empty train/test pieces without raising any error. -/
theorem claim_C7 :
    (∀ (L : DataLoader.Loader) (wLen ahead : ℕ) (ts : ℚ),
        L.dates.length < wLen + ahead →
        DataLoader.buildX L wLen ahead = [] ∧ DataLoader.buildY L wLen ahead = [] ∧
        DataLoader.buildDatasetE true L wLen ahead ts =
          Except.ok { xtrain := [], ytrain := [], xtest := [], ytest := [] }) ∧
    (∀ recs : List StockLoader.SRec, (StockLoader.sDates recs).length < 15 →
        StockLoader.sequences recs = [] ∧ StockLoader.targets recs = [] ∧
        StockLoader.splitData recs =
          { xtrain := [], ytrain := [], xtest := [], ytest := [] }) := by
  constructor
  · intro L wLen ahead ts hlen
    have hz : L.dates.length - ahead - wLen = 0 := by omega
    have hanch : DataLoader.anchors L wLen ahead = [] := by
      rw [DataLoader.anchors, hz]
      simp
    have hX : DataLoader.buildX L wLen ahead = [] := by rw [DataLoader.buildX, hanch]; rfl
    have hY : DataLoader.buildY L wLen ahead = [] := by rw [DataLoader.buildY, hanch]; rfl
    refine ⟨hX, hY, ?_⟩
    rw [DataLoader.buildDatasetE, if_pos rfl, DataLoader.buildDataset, hX, hY]
    simp
  · intro recs hlen
    have hz : StockLoader.seqCount recs = 0 := by
      rw [StockLoader.seqCount]; omega
    have hS : StockLoader.sequences recs = [] := by rw [StockLoader.sequences, hz]; rfl
    have hT : StockLoader.targets recs = [] := by rw [StockLoader.targets, hz]; rfl
    refine ⟨hS, hT, ?_⟩
    rw [StockLoader.splitData, hS, hT]
    simp

/-- Closed instance of C7: the 5-date dataset yields empty splits. -/
theorem claim_C7_inst :
    DataLoader.buildX (DataLoader.loadRows TestData.rows5) 12 3 = [] ∧
    DataLoader.buildDatasetE true (DataLoader.loadRows TestData.rows5) 12 3 (Rat.divInt 1 5) =
      Except.ok { xtrain := [], ytrain := [], xtest := [], ytest := [] } := by
  have h := claim_C7.1 (DataLoader.loadRows TestData.rows5) 12 3 (Rat.divInt 1 5) (by decide)
  exact ⟨h.1, h.2.2⟩

/-- C8 — counterexample: with two records for the same (date, symbol) pair
the `StockDataLoader` pivot keeps the FIRST record's values (`find`
returns the first match), not the last record's. -/
theorem claim_C8_cex :
    StockLoader.pivotCell TestData.srecsDup 0 0 = some (JSVal.num 1, JSVal.num 2) ∧
    TestData.srecsDup.getLast? =
      some { date := 0, symbol := 0, openV := JSVal.num 3, closeV := JSVal.num 4 } ∧
    some ((JSVal.num 1 : JSVal), JSVal.num 2) ≠ some ((JSVal.num 3 : JSVal), JSVal.num 4) := by
  decide

/-- C8 (amended) — the `DataLoader` pivot is last-write-wins: each cell
holds the values of the last record in input order for its (date, symbol)
pair (or the NaN sentinel when none exists); the `StockDataLoader` pivot is
FIRST-write-wins: a cell holds the values of the first matching record. -/
theorem claim_C8 :
    (∀ (rows : List DataLoader.Row) (dt sy : ℕ),
        dt ∈ DataLoader.datesOf rows → sy ∈ DataLoader.symbolsOf rows →
        DataLoader.cellAt (DataLoader.rawMatrix rows) (idxOf dt (DataLoader.datesOf rows))
            (idxOf sy (DataLoader.symbolsOf rows)) =
          (match DataLoader.lastMatch dt sy rows with
           | some r => (r.openV, r.closeV)
           | none => DataLoader.nanCell)) ∧
    (∀ (r : StockLoader.SRec) (rest : List StockLoader.SRec),
        StockLoader.pivotCell (r :: rest) r.date r.symbol = some (r.openV, r.closeV)) := by
  constructor
  · intro rows dt sy hdt hsy
    exact DataLoader.rawMatrix_cell rows hdt hsy
  · intro r rest
    simp [StockLoader.pivotCell, List.find?]

/-- Closed instance of C8: the duplicate-row dataset under the
`DataLoader` pivot keeps the LAST record's values. -/
theorem claim_C8_inst :
    DataLoader.cellAt (DataLoader.rawMatrix TestData.rowsAdup)
        (idxOf 0 (DataLoader.datesOf TestData.rowsAdup))
        (idxOf 0 (DataLoader.symbolsOf TestData.rowsAdup)) =
      (match DataLoader.lastMatch 0 0 TestData.rowsAdup with
       | some r => (r.openV, r.closeV)
       | none => DataLoader.nanCell) :=
  claim_C8.1 TestData.rowsAdup 0 0 (by decide) (by decide)

/-- C2 — counterexample: the `StockDataLoader` target vector is DAY-major.
On a 16-day dataset where symbol A always moves up and symbol B always
moves down, the produced target is `[1,0,1,0,1,0]` (offset-major), while
the symbol-major layout asserted by the claim would give `[1,1,1,0,0,0]`. -/
theorem claim_C2_cex :
    StockLoader.targetVec TestData.srecs16 0 = [1, 0, 1, 0, 1, 0] ∧
    SpecSide.claimTargetVecB TestData.srecs16 0 = [1, 1, 1, 0, 0, 0] ∧
    StockLoader.targets TestData.srecs16 = [StockLoader.targetVec TestData.srecs16 0] ∧
    StockLoader.targetVec TestData.srecs16 0 ≠ SpecSide.claimTargetVecB TestData.srecs16 0 := by
  decide

/-- C2 (amended) — label layout per variant, with each variant's consumer
using the same layout as its producer: the `DataLoader` labels are
symbol-major (entry for (symbol `s`, offset `t+1`) at flat position
`s * horizon + t`) and the `gru.js`/timeline consumers read the ground
truth at exactly `s * 3 + t`; the `StockDataLoader` targets are DAY-major
and `calculateStockAccuracies` reads the ground truth at
`s + day * stocksCount`, matching that layout. -/
theorem claim_C2 :
    (∀ (L : DataLoader.Loader) (ahead d s t : ℕ), s < L.symbols.length → t < ahead →
        (DataLoader.labelVec L ahead d).getD (s * ahead + t) 0 =
          DataLoader.upLabel L d s (t + 1)) ∧
    (∀ (L : DataLoader.Loader) (wLen i s t : ℕ), s < L.symbols.length → t < 3 →
        i < (DataLoader.anchors L wLen 3).length →
        DataLoader.gruTrueAt (DataLoader.buildY L wLen 3) i s t =
          DataLoader.upLabel L ((DataLoader.anchors L wLen 3).getD i 0) s (t + 1)) ∧
    (∀ (recs : List StockLoader.SRec) (i o s : ℕ), o < 3 →
        s < (StockLoader.sSymbols recs).length → i < StockLoader.seqCount recs →
        StockLoader.p3TrueAt (StockLoader.targets recs) (StockLoader.sSymbols recs).length i s o =
          StockLoader.targetEntry recs i (o + 1) ((StockLoader.sSymbols recs).getD s 0)) := by
  refine ⟨?_, ?_, ?_⟩
  · intro L ahead d s t hs ht
    exact DataLoader.labelVec_getD hs ht
  · intro L wLen i s t hs ht hi
    rw [DataLoader.gruTrueAt, DataLoader.gruPredIdx, DataLoader.buildY_getD hi]
    exact DataLoader.labelVec_getD hs ht
  · intro recs i o s ho hs hi
    rw [StockLoader.p3TrueAt, StockLoader.p3PredIdx, StockLoader.targets_getD hi,
      Nat.add_comm s (o * (StockLoader.sSymbols recs).length)]
    exact StockLoader.targetVec_getD ho hs

/-- Closed instance of C2: the `calculateStockAccuracies` read for
(sample 0, stock 1, day 0) on the 16-day dataset. -/
theorem claim_C2_inst :
    StockLoader.p3TrueAt (StockLoader.targets TestData.srecs16)
        (StockLoader.sSymbols TestData.srecs16).length 0 1 0 =
      StockLoader.targetEntry TestData.srecs16 0 1
        ((StockLoader.sSymbols TestData.srecs16).getD 1 0) :=
  claim_C2.2.2 TestData.srecs16 0 0 1 (by decide) (by decide) (by decide)

/-- A rational is an observed value iff its embedding is in the column. -/
theorem mem_observedVals {q : ℚ} {col : List JSVal} :
    q ∈ SpecSide.observedVals col ↔ JSVal.num q ∈ col := by
  rw [SpecSide.observedVals, List.mem_filterMap]
  constructor
  · rintro ⟨v, hv, hq⟩
    cases v <;> simp_all
  · intro h
    exact ⟨JSVal.num q, h, rfl⟩

/-- Observed values of an embedded rational list. -/
theorem observedVals_map_num (qs : List ℚ) :
    SpecSide.observedVals (qs.map JSVal.num) = qs := by
  induction qs with
  | nil => rfl
  | cons q t ih => simp [SpecSide.observedVals, List.filterMap_cons, ih] at ih ⊢; exact ih

/-- `filter(Boolean)` on a column whose present values are all nonzero
finite numbers keeps exactly the observations. -/
theorem filterBool_obs (col : List (Option JSVal))
    (h : ∀ o ∈ col, ∀ v, o = some v → ∃ q, v = JSVal.num q ∧ q ≠ 0) :
    StockLoader.filterBool col = (SpecSide.observedValsOpt col).map JSVal.num := by
  induction col with
  | nil => rfl
  | cons o t ih =>
      cases o with
      | none =>
          simp only [StockLoader.filterBool, List.filterMap_cons, SpecSide.observedValsOpt]
          exact ih (fun x hx => h x (List.mem_cons_of_mem _ hx))
      | some v =>
          obtain ⟨q, rfl, hq⟩ := h (some v) (List.mem_cons_self _ t) v rfl
          have ht := ih (fun x hx => h x (List.mem_cons_of_mem _ hx))
          simp only [StockLoader.filterBool, List.filterMap_cons, SpecSide.observedValsOpt,
            List.map_cons] at ht ⊢
          rw [show JSVal.truthy (JSVal.num q) = true from by simp [JSVal.truthy, hq]]
          simp only [if_true, List.map_cons]
          exact congrArg (List.cons (JSVal.num q)) ht

/-- C3 — counterexample: in the `DataLoader` variant a symbol with one
missing date gets NaN min/max (the NaN cell poisons `Math.min`/`Math.max`),
not the min over its non-missing observations; in the `StockDataLoader`
variant a legitimate observation equal to 0 is excluded by
`filter(Boolean)`, so the computed min is 5 where the spec minimum is 0. -/
theorem claim_C3_cex :
    JSVal.jsMinList (DataLoader.colCloses (DataLoader.rawMatrix TestData.rowsAm) 1) =
      JSVal.nan ∧
    SpecSide.specMin (DataLoader.colCloses (DataLoader.rawMatrix TestData.rowsAm) 1) =
      some 3 ∧
    JSVal.nan ≠ JSVal.num 3 ∧
    (StockLoader.stockStats TestData.srecsZero 0).map (fun st => st.closeMin) =
      some (JSVal.num 5) ∧
    SpecSide.specMinOpt (StockLoader.colClose TestData.srecsZero 0) = some 0 ∧
    (JSVal.num 5 : JSVal) ≠ JSVal.num 0 := by decide

/-- C3 (amended) — the computed statistics agree with the min/max over
exactly the non-missing observations ONLY on well-behaved columns: in the
`DataLoader` variant when every cell of the symbol is a finite observation
(one missing cell makes both statistics NaN); in the `StockDataLoader`
variant when every present observation is a nonzero finite number (the
`filter(Boolean)` step drops the value 0 and NaN as well as missing
cells). -/
theorem claim_C3 :
    (∀ (m : DataLoader.Mat) (s : ℕ),
        (∀ v ∈ DataLoader.colOpens m s, ∃ q, v = JSVal.num q) → m ≠ [] →
        ∃ mn mx, SpecSide.specMin (DataLoader.colOpens m s) = some mn ∧
          SpecSide.specMax (DataLoader.colOpens m s) = some mx ∧
          JSVal.jsMinList (DataLoader.colOpens m s) = JSVal.num mn ∧
          JSVal.jsMaxList (DataLoader.colOpens m s) = JSVal.num mx) ∧
    (∀ (m : DataLoader.Mat) (s : ℕ),
        (∀ v ∈ DataLoader.colCloses m s, ∃ q, v = JSVal.num q) → m ≠ [] →
        ∃ mn mx, SpecSide.specMin (DataLoader.colCloses m s) = some mn ∧
          SpecSide.specMax (DataLoader.colCloses m s) = some mx ∧
          JSVal.jsMinList (DataLoader.colCloses m s) = JSVal.num mn ∧
          JSVal.jsMaxList (DataLoader.colCloses m s) = JSVal.num mx) ∧
    (∀ (m : DataLoader.Mat) (s : ℕ), JSVal.nan ∈ DataLoader.colOpens m s →
        JSVal.jsMinList (DataLoader.colOpens m s) = JSVal.nan ∧
        JSVal.jsMaxList (DataLoader.colOpens m s) = JSVal.nan) ∧
    (∀ (m : DataLoader.Mat) (s : ℕ), JSVal.nan ∈ DataLoader.colCloses m s →
        JSVal.jsMinList (DataLoader.colCloses m s) = JSVal.nan ∧
        JSVal.jsMaxList (DataLoader.colCloses m s) = JSVal.nan) ∧
    (∀ (recs : List StockLoader.SRec) (sy : ℕ),
        (∀ o ∈ StockLoader.colClose recs sy, ∀ v, o = some v →
            ∃ q, v = JSVal.num q ∧ q ≠ 0) →
        StockLoader.filterBool (StockLoader.colClose recs sy) =
          (SpecSide.observedValsOpt (StockLoader.colClose recs sy)).map JSVal.num ∧
        (SpecSide.observedValsOpt (StockLoader.colClose recs sy) ≠ [] →
          ∃ mn, SpecSide.specMinOpt (StockLoader.colClose recs sy) = some mn ∧
            JSVal.jsMinList (StockLoader.filterBool (StockLoader.colClose recs sy)) =
              JSVal.num mn)) := by
  have generic : ∀ (col : List JSVal), (∀ v ∈ col, ∃ q, v = JSVal.num q) → col ≠ [] →
      ∃ mn mx, SpecSide.specMin col = some mn ∧ SpecSide.specMax col = some mx ∧
        JSVal.jsMinList col = JSVal.num mn ∧ JSVal.jsMaxList col = JSVal.num mx := by
    intro col hall hne
    obtain ⟨mn, hmin, hminspec⟩ := jsMinList_num_spec hall hne
    obtain ⟨mx, hmax, hmaxspec⟩ := jsMaxList_num_spec hall hne
    exact ⟨mn, mx, hminspec, hmaxspec, hmin, hmax⟩
  refine ⟨?_, ?_, ?_, ?_, ?_⟩
  · intro m s hall hne
    exact generic _ hall (by simpa [DataLoader.colOpens] using hne)
  · intro m s hall hne
    exact generic _ hall (by simpa [DataLoader.colCloses] using hne)
  · intro m s hmem
    exact ⟨jsMinList_nan_mem hmem, jsMaxList_nan_mem hmem⟩
  · intro m s hmem
    exact ⟨jsMinList_nan_mem hmem, jsMaxList_nan_mem hmem⟩
  · intro recs sy h
    have hfb := filterBool_obs _ h
    refine ⟨hfb, ?_⟩
    intro hne
    have hall : ∀ v ∈ StockLoader.filterBool (StockLoader.colClose recs sy),
        ∃ q, v = JSVal.num q := by
      intro v hv
      rw [hfb] at hv
      obtain ⟨q, _, rfl⟩ := List.mem_map.mp hv
      exact ⟨q, rfl⟩
    have hne2 : StockLoader.filterBool (StockLoader.colClose recs sy) ≠ [] := by
      rw [hfb]
      simpa using hne
    obtain ⟨mn, hmin, hminspec⟩ := jsMinList_num_spec hall hne2
    refine ⟨mn, ?_, hmin⟩
    rw [SpecSide.specMinOpt]
    rw [SpecSide.specMin, hfb, observedVals_map_num] at hminspec
    exact hminspec

/-- Closed instance of C3: the all-present column of symbol A in the
20-day dataset. -/
theorem claim_C3_inst :
    ∃ mn mx,
      SpecSide.specMin (DataLoader.colOpens (DataLoader.rawMatrix TestData.rowsA20) 0) =
        some mn ∧
      SpecSide.specMax (DataLoader.colOpens (DataLoader.rawMatrix TestData.rowsA20) 0) =
        some mx ∧
      JSVal.jsMinList (DataLoader.colOpens (DataLoader.rawMatrix TestData.rowsA20) 0) =
        JSVal.num mn ∧
      JSVal.jsMaxList (DataLoader.colOpens (DataLoader.rawMatrix TestData.rowsA20) 0) =
        JSVal.num mx :=
  claim_C3.1 (DataLoader.rawMatrix TestData.rowsA20) 0
    (by
      intro v hv
      cases v with
      | num q => exact ⟨q, rfl⟩
      | nan => exact absurd hv (by decide)
      | inf => exact absurd hv (by decide)
      | ninf => exact absurd hv (by decide))
    (by decide)

/-- C4 — counterexample: in the `StockDataLoader` variant, a missing
(date, symbol) cell is NOT normalized to 0.5 (it is absent and the feature
vector pads it with `[0, 0]`), and a label whose current close is missing
does not default to 0: it is computed as `futureClose > 0` and here
equals 1. -/
theorem claim_C4_cex :
    StockLoader.normalizedCell TestData.srecs16m 11 1 = none ∧
    StockLoader.featureVec TestData.srecs16m 11 =
      [JSVal.num (Rat.divInt 11 15), JSVal.num (Rat.divInt 11 15),
       JSVal.num 0, JSVal.num 0] ∧
    StockLoader.targetEntry TestData.srecs16m 0 1 1 = 1 := by decide

/-- C4 (amended) — in the `DataLoader` variant a (date, symbol) pair
absent from the CSV leaves the pivoted cell at the NaN sentinel, that cell
normalizes to the 0.5 fallback, and every label of that symbol is 0 (the
missing cell poisons the close statistics, so present closes normalize to
NaN and every comparison is false).  In the `StockDataLoader` variant the
missing cell is simply absent from the normalized data, and a label whose
current close is missing is computed as `futureClose > 0` (via `|| 0`),
not defaulted to 0. -/
theorem claim_C4 :
    (∀ (rows : List DataLoader.Row) (dt sy : ℕ),
        dt ∈ DataLoader.datesOf rows → sy ∈ DataLoader.symbolsOf rows →
        (∀ r ∈ rows, ¬(r.date = dt ∧ r.symbol = sy)) →
        DataLoader.cellAt (DataLoader.rawMatrix rows) (idxOf dt (DataLoader.datesOf rows))
            (idxOf sy (DataLoader.symbolsOf rows)) = DataLoader.nanCell ∧
        DataLoader.cellAt (DataLoader.loadRows rows).matrix
            (idxOf dt (DataLoader.datesOf rows)) (idxOf sy (DataLoader.symbolsOf rows)) =
          (JSVal.half, JSVal.half) ∧
        (∀ d t, DataLoader.upLabel (DataLoader.loadRows rows) d
            (idxOf sy (DataLoader.symbolsOf rows)) t = 0)) ∧
    (∀ (recs : List StockLoader.SRec) (dt sy : ℕ),
        StockLoader.pivotCell recs dt sy = none →
        StockLoader.normalizedCell recs dt sy = none) ∧
    (∀ (recs : List StockLoader.SRec) (i sy : ℕ),
        StockLoader.normalizedCell recs (StockLoader.dateAt recs (i + 11)) sy = none →
        StockLoader.currentClose recs i sy = JSVal.num 0 ∧
        (∀ off f,
            (StockLoader.normalizedCell recs (StockLoader.dateAt recs (i + 11 + off)) sy).map
              Prod.snd = some f →
            StockLoader.targetEntry recs i off sy =
              (if JSVal.jsGt f (JSVal.num 0) then 1 else 0))) := by
  refine ⟨?_, ?_, ?_⟩
  · intro rows dt sy hdt hsy hnone
    have hraw : DataLoader.cellAt (DataLoader.rawMatrix rows)
        (idxOf dt (DataLoader.datesOf rows)) (idxOf sy (DataLoader.symbolsOf rows)) =
        DataLoader.nanCell := by
      rw [DataLoader.rawMatrix_cell rows hdt hsy, lastMatch_none hnone]
    have hi : idxOf dt (DataLoader.datesOf rows) < (DataLoader.datesOf rows).length :=
      idxOf_lt_length hdt
    have hj : idxOf sy (DataLoader.symbolsOf rows) < (DataLoader.symbolsOf rows).length :=
      idxOf_lt_length hsy
    have hilen : idxOf dt (DataLoader.datesOf rows) < (DataLoader.rawMatrix rows).length := by
      rw [DataLoader.rawMatrix_length]
      exact hi
    refine ⟨hraw, ?_, ?_⟩
    · show DataLoader.cellAt (DataLoader.normalizeMatrix (DataLoader.symbolsOf rows).length
        (DataLoader.rawMatrix rows)) _ _ = _
      rw [DataLoader.cellAt_normalizeMatrix hilen hj, hraw]
      rfl
    · have hnanmem : JSVal.nan ∈ DataLoader.colCloses (DataLoader.rawMatrix rows)
          (idxOf sy (DataLoader.symbolsOf rows)) := by
        have hgd : (DataLoader.colCloses (DataLoader.rawMatrix rows)
            (idxOf sy (DataLoader.symbolsOf rows))).getD
            (idxOf dt (DataLoader.datesOf rows)) JSVal.nan = JSVal.nan := by
          rw [DataLoader.colCloses, getD_map_lt _ _ _ JSVal.nan [] hilen]
          show (DataLoader.cellAt (DataLoader.rawMatrix rows) _ _).2 = JSVal.nan
          rw [hraw]
          rfl
        have hmem := getD_mem (DataLoader.colCloses (DataLoader.rawMatrix rows)
            (idxOf sy (DataLoader.symbolsOf rows))) (idxOf dt (DataLoader.datesOf rows))
            JSVal.nan (by simpa [DataLoader.colCloses] using hilen)
        rwa [hgd] at hmem
      have hmin := jsMinList_nan_mem hnanmem
      have hmax := jsMaxList_nan_mem hnanmem
      have hclose : ∀ d, DataLoader.closeAt (DataLoader.loadRows rows) d
          (idxOf sy (DataLoader.symbolsOf rows)) = JSVal.half ∨
          DataLoader.closeAt (DataLoader.loadRows rows) d
          (idxOf sy (DataLoader.symbolsOf rows)) = JSVal.nan := by
        intro d
        have hrepr : DataLoader.closeAt (DataLoader.loadRows rows) d
            (idxOf sy (DataLoader.symbolsOf rows)) =
            (DataLoader.cellAt (DataLoader.normalizeMatrix (DataLoader.symbolsOf rows).length
              (DataLoader.rawMatrix rows)) d (idxOf sy (DataLoader.symbolsOf rows))).2 := rfl
        rw [hrepr]
        by_cases hd : d < (DataLoader.rawMatrix rows).length
        · rw [DataLoader.cellAt_normalizeMatrix hd hj]
          simp only
          rw [hmin, hmax, DataLoader.scale_nan_stats]
          by_cases hv : (DataLoader.cellAt (DataLoader.rawMatrix rows) d
              (idxOf sy (DataLoader.symbolsOf rows))).2 = JSVal.nan
          · rw [if_pos hv]
            exact Or.inl rfl
          · rw [if_neg hv]
            exact Or.inr rfl
        · rw [DataLoader.cellAt_normalizeMatrix_oob_d (by omega)]
          exact Or.inr rfl
      intro d t
      rw [DataLoader.upLabel, DataLoader.jsGt_pair_false (hclose _) (hclose _)]
      rfl
  · intro recs dt sy h
    simp [StockLoader.normalizedCell, h]
  · intro recs i sy h
    have hc : StockLoader.currentClose recs i sy = JSVal.num 0 := by
      simp [StockLoader.currentClose, h]
    refine ⟨hc, ?_⟩
    intro off f hf
    rw [StockLoader.targetEntry, hf, hc]

/-- Closed instance of C4: the missing (date 1, symbol B) cell of the
2-day dataset normalizes to (0.5, 0.5) and symbol B's labels are 0. -/
theorem claim_C4_inst :
    DataLoader.cellAt (DataLoader.loadRows TestData.rowsAm).matrix
        (idxOf 1 (DataLoader.datesOf TestData.rowsAm))
        (idxOf 1 (DataLoader.symbolsOf TestData.rowsAm)) = (JSVal.half, JSVal.half) ∧
    DataLoader.upLabel (DataLoader.loadRows TestData.rowsAm) 1
      (idxOf 1 (DataLoader.symbolsOf TestData.rowsAm)) 1 = 0 := by
  have h := claim_C4.1 TestData.rowsAm 1 1 (by decide) (by decide) (by decide)
  exact ⟨h.2.1, h.2.2 1 1⟩

/-- C5 — counterexample: the `StockDataLoader` normalizer has no
degenerate-range guard; a constant series (min = max = 5) is divided by
the zero range and the normalized cell is NaN, not 0.5. -/
theorem claim_C5_cex :
    StockLoader.stockStats TestData.srecsConst 0 =
      some { openMin := JSVal.num 5, openMax := JSVal.num 5,
             closeMin := JSVal.num 5, closeMax := JSVal.num 5 } ∧
    StockLoader.normalizedCell TestData.srecsConst 0 0 = some (JSVal.nan, JSVal.nan) ∧
    (JSVal.nan : JSVal) ≠ JSVal.half := by decide

/-- C5 (amended) — in the `DataLoader` variant, `max === min` makes every
normalized cell of that (symbol, feature) 0.5 and no division happens; in
the `StockDataLoader` variant, a cell whose value equals the degenerate
min = max statistic is divided by the zero range and becomes NaN. -/
theorem claim_C5 :
    (∀ (m : DataLoader.Mat) (sN d s : ℕ), d < m.length → s < sN →
        JSVal.jsEqq (JSVal.jsMaxList (DataLoader.colOpens m s))
          (JSVal.jsMinList (DataLoader.colOpens m s)) = true →
        (DataLoader.cellAt (DataLoader.normalizeMatrix sN m) d s).1 = JSVal.half) ∧
    (∀ (m : DataLoader.Mat) (sN d s : ℕ), d < m.length → s < sN →
        JSVal.jsEqq (JSVal.jsMaxList (DataLoader.colCloses m s))
          (JSVal.jsMinList (DataLoader.colCloses m s)) = true →
        (DataLoader.cellAt (DataLoader.normalizeMatrix sN m) d s).2 = JSVal.half) ∧
    (∀ (recs : List StockLoader.SRec) (dt sy : ℕ) (o c : JSVal) (st : StockLoader.SStats)
        (q : ℚ),
        StockLoader.pivotCell recs dt sy = some (o, c) →
        StockLoader.stockStats recs sy = some st →
        st.closeMax = st.closeMin → c = st.closeMin → c = JSVal.num q →
        (StockLoader.normalizedCell recs dt sy).map Prod.snd = some JSVal.nan) := by
  refine ⟨?_, ?_, ?_⟩
  · intro m sN d s hd hs hdeg
    rw [DataLoader.cellAt_normalizeMatrix hd hs]
    exact DataLoader.scale_eqq hdeg _
  · intro m sN d s hd hs hdeg
    rw [DataLoader.cellAt_normalizeMatrix hd hs]
    exact DataLoader.scale_eqq hdeg _
  · intro recs dt sy o c st q hpiv hstats hdeg hcmin hcq
    simp only [StockLoader.normalizedCell, hpiv, hstats, Option.map_some]
    have hmin : st.closeMin = JSVal.num q := hcmin.symm.trans hcq
    rw [hdeg, hmin, hcq]
    have hsub : JSVal.jsSub (JSVal.num q) (JSVal.num q) = JSVal.num 0 := by
      show JSVal.num (qsub q q) = JSVal.num 0
      rw [qsub_eq, sub_self]
    rw [hsub]
    rfl

/-- Closed instance of C5: symbol B's constant close in the 16-day
dataset normalizes to 0.5 everywhere in the `DataLoader` variant. -/
theorem claim_C5_inst :
    (DataLoader.cellAt (DataLoader.normalizeMatrix 2
      (DataLoader.rawMatrix TestData.rowsA16c)) 0 1).2 = JSVal.half :=
  claim_C5.2.1 (DataLoader.rawMatrix TestData.rowsA16c) 2 0 1 (by decide) (by decide)
    (by decide)

/-- C10 — labels are computed from the NORMALIZED closes, so a symbol with
a degenerate close range (max === min) has every normalized close equal to
the 0.5 fallback and every label entry equal to 0, since `0.5 > 0.5` is
false. -/
theorem claim_C10 (rows : List DataLoader.Row) (s : ℕ)
    (hs : s < (DataLoader.symbolsOf rows).length)
    (hdeg : JSVal.jsEqq
        (JSVal.jsMaxList (DataLoader.colCloses (DataLoader.rawMatrix rows) s))
        (JSVal.jsMinList (DataLoader.colCloses (DataLoader.rawMatrix rows) s)) = true) :
    (∀ d, d < (DataLoader.loadRows rows).dates.length →
        DataLoader.closeAt (DataLoader.loadRows rows) d s = JSVal.half) ∧
    (∀ d t, DataLoader.upLabel (DataLoader.loadRows rows) d s t = 0) ∧
    (∀ ahead d t, t < ahead →
        (DataLoader.labelVec (DataLoader.loadRows rows) ahead d).getD (s * ahead + t) 0 = 0) := by
  have hclose : ∀ d, DataLoader.closeAt (DataLoader.loadRows rows) d s = JSVal.half ∨
      DataLoader.closeAt (DataLoader.loadRows rows) d s = JSVal.nan := by
    intro d
    have hrepr : DataLoader.closeAt (DataLoader.loadRows rows) d s =
        (DataLoader.cellAt (DataLoader.normalizeMatrix (DataLoader.symbolsOf rows).length
          (DataLoader.rawMatrix rows)) d s).2 := rfl
    rw [hrepr]
    by_cases hd : d < (DataLoader.rawMatrix rows).length
    · rw [DataLoader.cellAt_normalizeMatrix hd hs]
      exact Or.inl (DataLoader.scale_eqq hdeg _)
    · rw [DataLoader.cellAt_normalizeMatrix_oob_d (by omega)]
      exact Or.inr rfl
  have hlabel : ∀ d t, DataLoader.upLabel (DataLoader.loadRows rows) d s t = 0 := by
    intro d t
    rw [DataLoader.upLabel, DataLoader.jsGt_pair_false (hclose _) (hclose _)]
    rfl
  refine ⟨?_, hlabel, ?_⟩
  · intro d hd
    have hrepr : DataLoader.closeAt (DataLoader.loadRows rows) d s =
        (DataLoader.cellAt (DataLoader.normalizeMatrix (DataLoader.symbolsOf rows).length
          (DataLoader.rawMatrix rows)) d s).2 := rfl
    rw [hrepr]
    have hd2 : d < (DataLoader.rawMatrix rows).length := by
      rw [DataLoader.rawMatrix_length]
      exact hd
    rw [DataLoader.cellAt_normalizeMatrix hd2 hs]
    exact DataLoader.scale_eqq hdeg _
  · intro ahead d t ht
    rw [DataLoader.labelVec_getD hs ht]
    exact hlabel d (t + 1)

/-- Closed instance of C10: symbol B of the 16-day constant-close dataset
has an all-zero label entry at the first sample. -/
theorem claim_C10_inst :
    (DataLoader.labelVec (DataLoader.loadRows TestData.rowsA16c) 3 12).getD (1 * 3 + 0) 0 = 0 :=
  (claim_C10 TestData.rowsA16c 1 (by decide) (by decide)).2.2 3 12 0 (by decide)

/-- `_scale` on finite values with a non-degenerate range is the linear
rescale. -/
theorem scale_num (q mn mx : ℚ) (hne : mn ≠ mx) :
    DataLoader.scale (JSVal.num q) (JSVal.num mn) (JSVal.num mx) =
      JSVal.num ((q - mn) / (mx - mn)) := by
  rw [DataLoader.scale, if_neg (by simp), if_neg (by simp [JSVal.jsEqq]; exact fun h => hne h.symm)]
  have hsub : mx - mn ≠ 0 := sub_ne_zero_of_ne (Ne.symm hne)
  show JSVal.jsDiv (JSVal.num (qsub q mn)) (JSVal.num (qsub mx mn)) = _
  rw [qsub_eq, qsub_eq, JSVal.jsDiv, if_neg hsub, qdiv_eq _ _ hsub]

/-- Rescaling a column by its own (finite, non-degenerate) statistics
produces a column whose `Math.min` is 0 and `Math.max` is 1, and rescaling
any of its values again by 0/1 is the identity. -/
theorem scale_scale_idem (col : List JSVal) (v0 : JSVal) (mn mx : ℚ)
    (hmin : JSVal.jsMinList col = JSVal.num mn) (hmax : JSVal.jsMaxList col = JSVal.num mx)
    (hne : mn ≠ mx) (hv0 : v0 ∈ col) :
    DataLoader.scale (DataLoader.scale v0 (JSVal.num mn) (JSVal.num mx))
        (JSVal.jsMinList (col.map (fun v => DataLoader.scale v (JSVal.num mn) (JSVal.num mx))))
        (JSVal.jsMaxList (col.map (fun v => DataLoader.scale v (JSVal.num mn) (JSVal.num mx)))) =
      DataLoader.scale v0 (JSVal.num mn) (JSVal.num mx) := by
  have hall := all_num_of_stats hmin hmax
  obtain ⟨q0, rfl⟩ := hall v0 hv0
  have hnecol : col ≠ [] := List.ne_nil_of_mem hv0
  obtain ⟨mn', hmin', hminspec⟩ := jsMinList_num_spec hall hnecol
  obtain ⟨mx', hmax', hmaxspec⟩ := jsMaxList_num_spec hall hnecol
  have hmn : mn' = mn := by
    have := hmin'.symm.trans hmin
    simpa using this
  have hmx : mx' = mx := by
    have := hmax'.symm.trans hmax
    simpa using this
  rw [hmn] at hminspec
  rw [hmx] at hmaxspec
  obtain ⟨mnmem, mnlb⟩ := min?_spec hminspec
  obtain ⟨mxmem, mxub⟩ := max?_spec hmaxspec
  have hlt : mn < mx := lt_of_le_of_ne (mxub mn mnmem) hne
  have hpos : (0 : ℚ) < mx - mn := by linarith
  have hall2 : ∀ w ∈ col.map (fun v => DataLoader.scale v (JSVal.num mn) (JSVal.num mx)),
      ∃ y, w = JSVal.num y := by
    intro w hw
    obtain ⟨v, hv, rfl⟩ := List.mem_map.mp hw
    obtain ⟨q, rfl⟩ := hall v hv
    exact ⟨(q - mn) / (mx - mn), scale_num q mn mx hne⟩
  have hne2 : col.map (fun v => DataLoader.scale v (JSVal.num mn) (JSVal.num mx)) ≠ [] := by
    simpa using hnecol
  obtain ⟨m0, hm0, hm0spec⟩ := jsMinList_num_spec hall2 hne2
  obtain ⟨m1, hm1, hm1spec⟩ := jsMaxList_num_spec hall2 hne2
  have hg_mem : ∀ q ∈ SpecSide.observedVals col,
      ((q - mn) / (mx - mn)) ∈ SpecSide.observedVals
        (col.map (fun v => DataLoader.scale v (JSVal.num mn) (JSVal.num mx))) := by
    intro q hq
    refine mem_observedVals.mpr (List.mem_map.mpr ⟨JSVal.num q, mem_observedVals.mp hq, ?_⟩)
    exact scale_num q mn mx hne
  have hmem_g : ∀ y ∈ SpecSide.observedVals
      (col.map (fun v => DataLoader.scale v (JSVal.num mn) (JSVal.num mx))),
      ∃ q ∈ SpecSide.observedVals col, y = (q - mn) / (mx - mn) := by
    intro y hy
    obtain ⟨v, hv, hvy⟩ := List.mem_map.mp (mem_observedVals.mp hy)
    obtain ⟨q, rfl⟩ := hall v hv
    rw [scale_num q mn mx hne] at hvy
    exact ⟨q, mem_observedVals.mpr hv, by simpa using hvy.symm⟩
  obtain ⟨m0mem, m0lb⟩ := min?_spec hm0spec
  obtain ⟨m1mem, m1ub⟩ := max?_spec hm1spec
  have hm0eq : m0 = 0 := by
    have le1 : m0 ≤ 0 := by
      have := m0lb _ (hg_mem mn mnmem)
      simpa using this
    have le2 : (0 : ℚ) ≤ m0 := by
      obtain ⟨q, hq, rfl⟩ := hmem_g m0 m0mem
      exact div_nonneg (by linarith [mnlb q hq]) hpos.le
    linarith
  have hm1eq : m1 = 1 := by
    have ge1 : (1 : ℚ) ≤ m1 := by
      have := m1ub _ (hg_mem mx mxmem)
      rwa [div_self hpos.ne.symm] at this
    have ge2 : m1 ≤ 1 := by
      obtain ⟨q, hq, rfl⟩ := hmem_g m1 m1mem
      rw [div_le_one hpos]
      linarith [mxub q hq]
    linarith
  rw [hm0, hm1, hm0eq, hm1eq, scale_num q0 mn mx hne,
    scale_num ((q0 - mn) / (mx - mn)) 0 1 (by norm_num)]
  congr 1
  simp

/-- C9 — normalization is idempotent on non-fallback cells: when a
symbol's column statistics are finite and non-degenerate (the glossary's
condition for the fallback not to apply), re-running `_normalize` on the
already-normalized matrix leaves every cell of that (symbol, feature)
unchanged, exactly (hence within any floating tolerance). -/
theorem claim_C9 (m : DataLoader.Mat) (sN d s : ℕ) (mn mx : ℚ) (hd : d < m.length)
    (hs : s < sN) :
    (JSVal.jsMinList (DataLoader.colOpens m s) = JSVal.num mn →
     JSVal.jsMaxList (DataLoader.colOpens m s) = JSVal.num mx → mn ≠ mx →
     (DataLoader.cellAt (DataLoader.normalizeMatrix sN (DataLoader.normalizeMatrix sN m)) d s).1 =
       (DataLoader.cellAt (DataLoader.normalizeMatrix sN m) d s).1) ∧
    (JSVal.jsMinList (DataLoader.colCloses m s) = JSVal.num mn →
     JSVal.jsMaxList (DataLoader.colCloses m s) = JSVal.num mx → mn ≠ mx →
     (DataLoader.cellAt (DataLoader.normalizeMatrix sN (DataLoader.normalizeMatrix sN m)) d s).2 =
       (DataLoader.cellAt (DataLoader.normalizeMatrix sN m) d s).2) := by
  have hd2 : d < (DataLoader.normalizeMatrix sN m).length := by
    rw [DataLoader.normalizeMatrix_length]
    exact hd
  constructor
  · intro hmin hmax hne
    have hv0mem : (DataLoader.cellAt m d s).1 ∈ DataLoader.colOpens m s := by
      have hgd : (DataLoader.colOpens m s).getD d JSVal.nan = (DataLoader.cellAt m d s).1 := by
        rw [DataLoader.colOpens, getD_map_lt _ m d JSVal.nan [] hd]
        rfl
      have hmem := getD_mem (DataLoader.colOpens m s) d JSVal.nan
        (by simpa [DataLoader.colOpens] using hd)
      rwa [hgd] at hmem
    have e1 : (DataLoader.cellAt (DataLoader.normalizeMatrix sN
        (DataLoader.normalizeMatrix sN m)) d s).1 =
        DataLoader.scale ((DataLoader.cellAt (DataLoader.normalizeMatrix sN m) d s).1)
          (JSVal.jsMinList (DataLoader.colOpens (DataLoader.normalizeMatrix sN m) s))
          (JSVal.jsMaxList (DataLoader.colOpens (DataLoader.normalizeMatrix sN m) s)) := by
      rw [DataLoader.cellAt_normalizeMatrix hd2 hs]
    have e2 : (DataLoader.cellAt (DataLoader.normalizeMatrix sN m) d s).1 =
        DataLoader.scale ((DataLoader.cellAt m d s).1) (JSVal.num mn) (JSVal.num mx) := by
      rw [DataLoader.cellAt_normalizeMatrix hd hs]
      simp only
      rw [hmin, hmax]
    have e3 : DataLoader.colOpens (DataLoader.normalizeMatrix sN m) s =
        (DataLoader.colOpens m s).map
          (fun v => DataLoader.scale v (JSVal.num mn) (JSVal.num mx)) := by
      rw [DataLoader.colOpens_normalizeMatrix m hs, hmin, hmax]
    rw [e1, e2, e3]
    exact scale_scale_idem (DataLoader.colOpens m s) _ mn mx hmin hmax hne hv0mem
  · intro hmin hmax hne
    have hv0mem : (DataLoader.cellAt m d s).2 ∈ DataLoader.colCloses m s := by
      have hgd : (DataLoader.colCloses m s).getD d JSVal.nan = (DataLoader.cellAt m d s).2 := by
        rw [DataLoader.colCloses, getD_map_lt _ m d JSVal.nan [] hd]
        rfl
      have hmem := getD_mem (DataLoader.colCloses m s) d JSVal.nan
        (by simpa [DataLoader.colCloses] using hd)
      rwa [hgd] at hmem
    have e1 : (DataLoader.cellAt (DataLoader.normalizeMatrix sN
        (DataLoader.normalizeMatrix sN m)) d s).2 =
        DataLoader.scale ((DataLoader.cellAt (DataLoader.normalizeMatrix sN m) d s).2)
          (JSVal.jsMinList (DataLoader.colCloses (DataLoader.normalizeMatrix sN m) s))
          (JSVal.jsMaxList (DataLoader.colCloses (DataLoader.normalizeMatrix sN m) s)) := by
      rw [DataLoader.cellAt_normalizeMatrix hd2 hs]
    have e2 : (DataLoader.cellAt (DataLoader.normalizeMatrix sN m) d s).2 =
        DataLoader.scale ((DataLoader.cellAt m d s).2) (JSVal.num mn) (JSVal.num mx) := by
      rw [DataLoader.cellAt_normalizeMatrix hd hs]
      simp only
      rw [hmin, hmax]
    have e3 : DataLoader.colCloses (DataLoader.normalizeMatrix sN m) s =
        (DataLoader.colCloses m s).map
          (fun v => DataLoader.scale v (JSVal.num mn) (JSVal.num mx)) := by
      rw [DataLoader.colCloses_normalizeMatrix m hs, hmin, hmax]
    rw [e1, e2, e3]
    exact scale_scale_idem (DataLoader.colCloses m s) _ mn mx hmin hmax hne hv0mem

/-- Closed instance of C9: double-normalizing symbol A's opens in the
20-day dataset leaves the first cell unchanged. -/
theorem claim_C9_inst :
    (DataLoader.cellAt (DataLoader.normalizeMatrix 2 (DataLoader.normalizeMatrix 2
        (DataLoader.rawMatrix TestData.rowsA20))) 0 0).1 =
      (DataLoader.cellAt (DataLoader.normalizeMatrix 2
        (DataLoader.rawMatrix TestData.rowsA20)) 0 0).1 :=
  (claim_C9 (DataLoader.rawMatrix TestData.rowsA20) 2 0 0 1 20 (by decide) (by decide)).1
    (by decide) (by decide) (by decide)

end Pipeline
